import Mathlib

/-!
# Strategy: slots, activity groups and index translation

A shallow embedding of `src/strategy.cpp` (class `Strategy`) and proofs about
its grouping algorithm, its two index translations and its slot mutations.

Conventions of the embedding.

* `std::vector<T>` is a `List T`; `std::optional<T>` is `Option T`.
* A C++ `for` loop over an index interval is a `List.foldl` over the list of
  the indices it visits, with the mutated locals as the folded state; a loop
  with an early `return` is a recursion over that index list.
* Loop counters (`unsigned int`) are `Nat`, and `int` values are `Int`.  The
  slot array is taken to be shorter than `2 ^ 31`, so no counter, length or
  running sum of the source wraps around.  A `static_cast<unsigned int>` that
  is evaluated only after its argument was tested non-negative is
  `Int.toNat`; the one cast that is not guarded (`setSlotAtIndex`) is taken
  modulo `2 ^ 32`.
* `operator[]` of a vector at an index inside the bounds is `List.getD`
  (the default is never read there); a write at an index outside the bounds
  has no defined result, and the operation that can perform one returns an
  `Option`.
* A parameter of a reference type that the callee reads while it writes the
  object the reference may designate (`const Activity &` of
  `removeActivity`, which rewrites the catalogue) is an `ActivityRef`, read
  through at every use; a read through a reference to a destroyed element
  has no defined result.
-/

namespace Strategr

/-! ## Data model -/

/-- Modelled from the spec: `strategy.h`, which declares `Activity`, is not
part of the sources.  An activity is a value "identified by structural
equality"; `strategy.cpp` builds one from its name (`Activity("Training")`)
and compares two with `==` and `!=`. -/
structure Activity where
  name : String
deriving DecidableEq, Repr

/-- The type `Slot` of the source, `optional<Activity>`: unassigned or
assigned to one activity. -/
abbrev Slot := Option Activity

/-- The type `SlotsState` of the source, `vector<Slot>`. -/
abbrev SlotsState := List Slot

/-- Modelled from the spec: the declaration of `ActivityGroup` is in the absent
`strategy.h`.  It is the pair "(activity-or-none, length)"; the constructor
call `ActivityGroup(slot)` of `strategy.cpp` yields the singleton group of
that slot, "`{none, 1}`" or "`{a, 1}`", hence the default length. -/
structure ActivityGroup where
  activity : Option Activity
  length : Nat := 1
deriving DecidableEq, Repr

/-- The type `ActivityGroupsState` of the source, `vector<ActivityGroup>`. -/
abbrev ActivityGroupsState := List ActivityGroup

/-- The members of `Strategy` that `strategy.cpp` reads and writes: the
catalogue `activities` and the slot array `_slotsState`. -/
structure Strategy where
  activities : List Activity
  _slotsState : SlotsState
deriving DecidableEq, Repr

/-- Getter `Strategy::slotsState()`. -/
def Strategy.slotsState (s : Strategy) : SlotsState := s._slotsState

/-- Setter `Strategy::setSlotsState`. -/
def Strategy.setSlotsState (s : Strategy) (slotsState : SlotsState) : Strategy :=
  { s with _slotsState := slotsState }

/-! ## Grouping -/

/-- The statement `result.push_back(cachedActivityGroup.value())` under its
guard `cachedActivityGroup.has_value()`. -/
def pushCached (result : ActivityGroupsState) (cachedActivityGroup : Option ActivityGroup) :
    ActivityGroupsState :=
  match cachedActivityGroup with
  | some g => result ++ [g]
  | none => result

/-- The expression `index > 0 ? slotsState[index - 1] : nullopt` that
`group()` stores in `prevActivity`. -/
def prevSlot (slotsState : SlotsState) (index : Nat) : Slot :=
  if index > 0 then slotsState.getD (index - 1) none else none

/-- One iteration of the loop of `Strategy::group()`, at `index`, on the locals
`(result, cachedActivityGroup)`. -/
def groupStep (slotsState : SlotsState)
    (st : ActivityGroupsState × Option ActivityGroup) (index : Nat) :
    ActivityGroupsState × Option ActivityGroup :=
  let result := st.1
  let cachedActivityGroup := st.2
  let activity : Slot := slotsState.getD index none
  let defaultActivityGroup : ActivityGroup := { activity := slotsState.getD index none }
  let prevActivity : Slot := prevSlot slotsState index
  match activity with
  | none =>
    (pushCached result cachedActivityGroup ++ [defaultActivityGroup], none)
  | some a =>
    let st1 : ActivityGroupsState × Option ActivityGroup :=
      match prevActivity with
      | none => (pushCached result cachedActivityGroup, some defaultActivityGroup)
      | some p =>
        if p ≠ a then
          (pushCached result cachedActivityGroup, some defaultActivityGroup)
        else
          (result, cachedActivityGroup.map fun g => { g with length := g.length + 1 })
    if st1.2.isSome ∧ index = slotsState.length - 1 then
      (pushCached st1.1 st1.2, st1.2)
    else
      st1

/-- The loop of `Strategy::group()` on a slot array: indices `0 .. size - 1`
in order, from an empty `result` and an empty `cachedActivityGroup`. -/
def groupSlots (slotsState : SlotsState) : ActivityGroupsState :=
  ((List.range slotsState.length).foldl (groupStep slotsState) ([], none)).1

/-- Method `Strategy::group()`. -/
def Strategy.group (s : Strategy) : ActivityGroupsState :=
  groupSlots s.slotsState

/-! ## Slot access and mutation -/

/-- Method `Strategy::hasSlotIndex`: `index >= 0 && unsigned(index) < size`. -/
def Strategy.hasSlotIndex (s : Strategy) (index : Int) : Bool :=
  decide (index ≥ 0) && decide (index.toNat < s.slotsState.length)

/-- Method `Strategy::hasActivity`: whether `std::find` meets the activity in
the catalogue. -/
def Strategy.hasActivity (s : Strategy) (activity : Activity) : Bool :=
  if s.activities.find? (fun x => x == activity) ≠ none then true else false

/-- Method `Strategy::slotAtIndex`. -/
def Strategy.slotAtIndex (s : Strategy) (index : Int) : Slot :=
  if !s.hasSlotIndex index then
    none
  else
    s._slotsState.getD index.toNat none

/-- The conversion `static_cast<unsigned int>(index)` of an `int` that may be
negative. -/
def toUnsigned (index : Int) : Nat := (index % 2 ^ 32).toNat

/-- Method `Strategy::setSlotAtIndex`: the write
`_slotsState[static_cast<unsigned int>(index)] = slot`, which the source
performs without testing the index.  Outside the bounds of the vector the
write has no defined result: `none`. -/
def Strategy.setSlotAtIndex (s : Strategy) (index : Int) (slot : Slot) : Option Strategy :=
  if toUnsigned index < s._slotsState.length then
    some { s with _slotsState := s._slotsState.set (toUnsigned index) slot }
  else
    none

/-- Method `Strategy::setSlotAtIndices`: `setSlotAtIndex` at each index in
turn. -/
def Strategy.setSlotAtIndices (s : Strategy) (indices : List Int) (slot : Slot) :
    Option Strategy :=
  indices.foldl (fun st index => st.bind fun t => t.setSlotAtIndex index slot) (some s)

/-- Method `Strategy::appendActivity`. -/
def Strategy.appendActivity (s : Strategy) (activity : Activity) : Strategy :=
  { s with activities := s.activities ++ [activity] }

/-- An argument of type `const Activity &`.  The reference designates either
an `Activity` object that is stored outside the catalogue (a local, a
temporary, a copy returned by `slotAtIndex` or `slotsState()`, which both
return by value), whose value no method call changes, or the element
`activities[i]` of the catalogue itself, whose value is whatever the vector
holds at index `i` at the moment of the read. -/
inductive ActivityRef where
  | object (a : Activity)
  | element (i : Nat)
deriving DecidableEq, Repr

/-- The value read through a reference while the catalogue is `activities`;
`none` when the reference designates an element that the vector does not
(or no longer does) have. -/
def ActivityRef.read (activities : List Activity) : ActivityRef → Option Activity
  | ActivityRef.object a => some a
  | ActivityRef.element i => activities[i]?

/-- The call `std::find(first, last, value)` at the head of `std::remove`: the
index of the first element that compares equal to `value`, the size of the
vector if there is none.  No element is written during the search. -/
def findIndex (activities : List Activity) (value : ActivityRef) : Nat :=
  activities.findIdx fun x => decide (value.read activities = some x)

/-- One iteration of the loop of `std::remove` (as libstdc++ and libc++
implement it), at the iterator `first`, on the vector and the iterator
`result`:
`if (!(*first == value)) { *result = std::move(*first); ++result; }`, with
`value` read through the reference at this comparison.  The moved-from
element at `first` is not read again: later iterations read elements past
`first`, and the element that `value` designates is never moved from, since
it compares equal to itself. -/
def removeStep (value : ActivityRef) (st : List Activity × Nat) (first : Nat) :
    List Activity × Nat :=
  match st.1[first]? with
  | some x =>
    if value.read st.1 = some x then st
    else (st.1.set st.2 x, st.2 + 1)
  | none => st

/-- The call `std::remove(activities.begin(), activities.end(), activity)`: the
vector after the call and the returned iterator, as an index.  After the
search, `result` starts at the first match and the loop visits the indices
after it. -/
def stdRemove (activities : List Activity) (value : ActivityRef) : List Activity × Nat :=
  let first := findIndex activities value
  if first = activities.length then
    (activities, first)
  else
    (List.range' (first + 1) (activities.length - (first + 1))).foldl (removeStep value)
      (activities, first)

/-- One iteration of the slot loop of `Strategy::removeActivity`, at `i`:
`slot.has_value() && slot.value() == activity` reads `activity` only when the
slot is assigned; reading a reference to an erased element has no defined
result. -/
def removeActivityStep (activity : ActivityRef) (st : Option Strategy) (i : Nat) :
    Option Strategy :=
  st.bind fun s =>
    let slot := s.slotAtIndex (Int.ofNat i)
    match slot with
    | some a =>
      match activity.read s.activities with
      | some v => if a = v then some { s with _slotsState := s._slotsState.set i none } else some s
      | none => none
    | none => some s

/-- Method `Strategy::removeActivity(const Activity &activity)`:
`activities.erase(std::remove(...), activities.end())`, which keeps the
elements before the returned iterator, then the loop over the slot
indices. -/
def Strategy.removeActivity (s : Strategy) (activity : ActivityRef) : Option Strategy :=
  let removed := stdRemove s.activities activity
  let s1 : Strategy := { s with activities := removed.1.take removed.2 }
  (List.range s1.slotsState.length).foldl (removeActivityStep activity) (some s1)

/-- Method `Strategy::copySlot`. -/
def Strategy.copySlot (s : Strategy) (fromIndex toIndex : Int) : Strategy :=
  if !s.hasSlotIndex fromIndex || !s.hasSlotIndex toIndex then
    s
  else
    { s with _slotsState :=
        s._slotsState.set toIndex.toNat (s._slotsState.getD fromIndex.toNat none) }

/-- Method `Strategy::fillSlots`.  After the swap the loop
`for (i = fromIndex; i <= toIndex; i++)` visits the `toIndex + 1 - fromIndex`
indices `fromIndex + k`. -/
def Strategy.fillSlots (s : Strategy) (fromIndex toIndex : Int) : Strategy :=
  if !s.hasSlotIndex fromIndex || !s.hasSlotIndex toIndex then
    s
  else
    let sourceIndex := fromIndex
    let bounds : Int × Int :=
      if toIndex < fromIndex then (toIndex, fromIndex) else (fromIndex, toIndex)
    let fromIndex := bounds.1
    let toIndex := bounds.2
    (List.range (toIndex + 1 - fromIndex).toNat).foldl
      (fun st k => st.copySlot sourceIndex (fromIndex + Int.ofNat k)) s

/-! ## Index translation -/

/-- The group `activityGroups[i]` read by the two index translations. -/
def groupAt (activityGroups : ActivityGroupsState) (i : Nat) : ActivityGroup :=
  activityGroups.getD i { activity := none }

/-- One iteration of the loop of `Strategy::startSlotIndexForGroupIndex`, at
`i`, on the local `lastSlotIndex`. -/
def lastSlotIndexStep (activityGroups : ActivityGroupsState) (lastSlotIndex : Int) (i : Nat) :
    Int :=
  let activityGroup := groupAt activityGroups i
  let startSlotIndex := lastSlotIndex + 1
  let endSlotIndex := startSlotIndex + Int.ofNat activityGroup.length - 1
  endSlotIndex

/-- Method `Strategy::startSlotIndexForGroupIndex`; the loop visits
`i = 0 .. groupIndex`. -/
def Strategy.startSlotIndexForGroupIndex (s : Strategy) (groupIndex : Int) : Option Int :=
  let activityGroups := s.group
  if groupIndex < 0 ∨ groupIndex.toNat ≥ activityGroups.length then
    none
  else
    let lastSlotIndex : Int :=
      (List.range (groupIndex.toNat + 1)).foldl (lastSlotIndexStep activityGroups) (-1)
    let lastSlotLength : Int := Int.ofNat (groupAt activityGroups groupIndex.toNat).length
    some (lastSlotIndex - (lastSlotLength - 1))

/-- The loop of `Strategy::groupIndexForSlotIndex` over the indices still to
visit, with the local `lastSlotIndex`; it returns from inside the loop at the
first group whose interval holds `slotIndex`. -/
def groupIndexLoop (activityGroups : ActivityGroupsState) (slotIndex : Int) :
    List Nat → Int → Option Int
  | [], _ => none
  | i :: rest, lastSlotIndex =>
    let activityGroup := groupAt activityGroups i
    let startSlotIndex := lastSlotIndex + 1
    let endSlotIndex := startSlotIndex + Int.ofNat activityGroup.length - 1
    if slotIndex ≥ startSlotIndex ∧ slotIndex ≤ endSlotIndex then
      some (Int.ofNat i)
    else
      groupIndexLoop activityGroups slotIndex rest endSlotIndex

/-- Method `Strategy::groupIndexForSlotIndex`. -/
def Strategy.groupIndexForSlotIndex (s : Strategy) (slotIndex : Int) : Option Int :=
  let activityGroups := s.group
  groupIndexLoop activityGroups slotIndex (List.range activityGroups.length) (-1)

/-! ## The grouping loop as a recursion on the slots

`runsFrom c slots` is what the loop of `group()` still appends to `result`
when the group in progress is `c` and `slots` are the slots not yet visited.
It is a device of the proofs: `groupSlots_eq` shows that the loop computes
it. -/

/-- The groups that the slots still to visit contribute, given the group in
progress. -/
def runsFrom : Option ActivityGroup → List Slot → ActivityGroupsState
  | c, [] => c.toList
  | c, none :: tl => c.toList ++ { activity := none, length := 1 } :: runsFrom none tl
  | none, some a :: tl => runsFrom (some { activity := some a, length := 1 }) tl
  | some g, some a :: tl =>
    if g.activity = some a then
      runsFrom (some { activity := g.activity, length := g.length + 1 }) tl
    else
      g :: runsFrom (some { activity := some a, length := 1 }) tl

/-- The link between the group in progress and the slot visited last: no
group is in progress after an unassigned slot (or at the start), and after a
slot assigned to `a` the group in progress is a group of `a`. -/
def Pending (prev : Slot) (c : Option ActivityGroup) : Prop :=
  match prev with
  | none => c = none
  | some a => ∃ n, c = some { activity := some a, length := n }

/-- The slot sequence that a group sequence stands for: each group's activity
value, `length` times, in order. -/
def expandGroups (groups : ActivityGroupsState) : List Slot :=
  groups.flatMap fun g => List.replicate g.length g.activity

/-- The sum of the `length` fields of a group sequence. -/
def totalLength (groups : ActivityGroupsState) : Nat :=
  (groups.map fun g => g.length).sum

/-- The sum of the lengths of the groups `0 .. i - 1` (`0` for `i = 0`): the
flat index of the first slot of group `i`. -/
def groupStart (groups : ActivityGroupsState) (i : Nat) : Nat :=
  totalLength (groups.take i)

/-- What `removeActivity(activity)` makes of one slot: unassigned if the slot
equals the activity, the slot itself otherwise. -/
def clearedSlot (activity : Activity) (slot : Slot) : Slot :=
  if slot = some activity then none else slot

/-! ## Construction and reachable states -/

/-- Method `Strategy::createEmtpty`, with the member `numberOfSlots` (declared
in the absent `strategy.h`) as a parameter.  The catalogue is the four listed
activities; the loop pushes, at index `i`, `activities[0]`, `activities[1]`,
`activities[2]` or `nullopt` according to the quarter of the array that `i`
is in. -/
def Strategy.createEmtpty (numberOfSlots : Nat) : Strategy :=
  let activities : List Activity := [⟨"Training"⟩, ⟨"Work 1"⟩, ⟨"Nap"⟩, ⟨"Commute"⟩]
  let slotsState : SlotsState :=
    (List.range numberOfSlots).foldl
      (fun slotsState i =>
        if i < numberOfSlots / 4 then
          slotsState ++ [activities[0]?]
        else if i < 2 * numberOfSlots / 4 then
          slotsState ++ [activities[1]?]
        else if i < 3 * numberOfSlots / 4 then
          slotsState ++ [activities[2]?]
        else
          slotsState ++ [none])
      []
  { activities := activities, _slotsState := slotsState }

/-- The states reachable from `createEmtpty()` by `appendActivity`, by
`removeActivity` called with an object that is not an element of the
catalogue, by `copySlot`, `fillSlots`, and by `setSlotAtIndex` and
`setSlotAtIndices` at in-range indices with a slot that is unassigned or
holds an activity of the current catalogue. -/
inductive Reachable (numberOfSlots : Nat) : Strategy → Prop
  | create : Reachable numberOfSlots (Strategy.createEmtpty numberOfSlots)
  | appendActivity (s : Strategy) (activity : Activity) :
      Reachable numberOfSlots s → Reachable numberOfSlots (s.appendActivity activity)
  | removeActivity (s t : Strategy) (activity : Activity) :
      Reachable numberOfSlots s →
      s.removeActivity (ActivityRef.object activity) = some t →
      Reachable numberOfSlots t
  | copySlot (s : Strategy) (fromIndex toIndex : Int) :
      Reachable numberOfSlots s → Reachable numberOfSlots (s.copySlot fromIndex toIndex)
  | fillSlots (s : Strategy) (fromIndex toIndex : Int) :
      Reachable numberOfSlots s → Reachable numberOfSlots (s.fillSlots fromIndex toIndex)
  | setSlotAtIndex (s t : Strategy) (index : Int) (slot : Slot) :
      Reachable numberOfSlots s →
      0 ≤ index ∧ index < (s.slotsState.length : Int) →
      (∀ a, slot = some a → s.hasActivity a = true) →
      s.setSlotAtIndex index slot = some t →
      Reachable numberOfSlots t
  | setSlotAtIndices (s t : Strategy) (indices : List Int) (slot : Slot) :
      Reachable numberOfSlots s →
      (∀ i ∈ indices, 0 ≤ i ∧ i < (s.slotsState.length : Int)) →
      (∀ a, slot = some a → s.hasActivity a = true) →
      s.setSlotAtIndices indices slot = some t →
      Reachable numberOfSlots t

/-- A state has no dangling reference when the activity of every assigned slot
of the array satisfies `hasActivity`. -/
def NoDangling (s : Strategy) : Prop :=
  ∀ a : Activity, some a ∈ s.slotsState → s.hasActivity a = true

/-! ## Counting the groups -/

theorem pushCached_eq (r : ActivityGroupsState) (c : Option ActivityGroup) :
    pushCached r c = r ++ c.toList := by
  cases c <;> simp [pushCached]

theorem groupStep_last (slots : SlotsState) (k : Nat) (hk : k + 1 = slots.length)
    (r : ActivityGroupsState) (c : Option ActivityGroup) (hc : Pending (prevSlot slots k) c) :
    (groupStep slots (r, c) k).1 = r ++ runsFrom c [slots.getD k none] := by
  have hlast : k = slots.length - 1 := by omega
  cases hx : slots.getD k none with
  | none => simp only [groupStep, hx]; simp [pushCached_eq, runsFrom]
  | some a =>
    cases hp : prevSlot slots k with
    | none =>
      rw [hp] at hc
      simp only [Pending] at hc
      subst hc
      simp only [groupStep, hx, hp]; simp [pushCached_eq, runsFrom, ← hlast]
    | some p =>
      rw [hp] at hc
      obtain ⟨n, rfl⟩ := hc
      by_cases hpa : p = a
      · subst hpa
        simp only [groupStep, hx, hp]; simp [pushCached_eq, runsFrom, ← hlast]
      · simp only [groupStep, hx, hp]; simp [pushCached_eq, runsFrom, ← hlast, hpa]

theorem groupStep_inner (slots : SlotsState) (k : Nat) (hk : k + 1 < slots.length)
    (r : ActivityGroupsState) (c : Option ActivityGroup) (hc : Pending (prevSlot slots k) c) :
    Pending (slots.getD k none) (groupStep slots (r, c) k).2 ∧
      ∀ tl, (groupStep slots (r, c) k).1 ++ runsFrom (groupStep slots (r, c) k).2 tl
        = r ++ runsFrom c (slots.getD k none :: tl) := by
  have hlast : k ≠ slots.length - 1 := by omega
  cases hx : slots.getD k none with
  | none => simp only [groupStep, hx]; simp [pushCached_eq, runsFrom, Pending]
  | some a =>
    cases hp : prevSlot slots k with
    | none =>
      rw [hp] at hc
      simp only [Pending] at hc
      subst hc
      simp only [groupStep, hx, hp]; simp [pushCached_eq, runsFrom, hlast, Pending]
    | some p =>
      rw [hp] at hc
      obtain ⟨n, rfl⟩ := hc
      by_cases hpa : p = a
      · subst hpa
        simp only [groupStep, hx, hp]; simp [pushCached_eq, runsFrom, hlast, Pending]
      · simp only [groupStep, hx, hp]; simp [pushCached_eq, runsFrom, hlast, hpa, Pending]

theorem group_loop (slots : SlotsState) :
    ∀ (m k : Nat) (r : ActivityGroupsState) (c : Option ActivityGroup),
      k + (m + 1) = slots.length → Pending (prevSlot slots k) c →
      ((List.range' k (m + 1)).foldl (groupStep slots) (r, c)).1
        = r ++ runsFrom c (slots.drop k) := by
  intro m
  induction m with
  | zero =>
    intro k r c hk hc
    have hlt : k < slots.length := by omega
    have hd : slots.drop k = [slots.getD k none] := by
      rw [List.drop_eq_getElem_cons hlt, List.drop_of_length_le (by omega),
        List.getD_eq_getElem slots none hlt]
    simp only [List.range'_one, List.foldl_cons, List.foldl_nil, hd]
    exact groupStep_last slots k (by omega) r c hc
  | succ m ih =>
    intro k r c hk hc
    have hlt : k < slots.length := by omega
    have hd : slots.drop k = slots.getD k none :: slots.drop (k + 1) := by
      rw [List.drop_eq_getElem_cons hlt, List.getD_eq_getElem slots none hlt]
    obtain ⟨h1, h2⟩ := groupStep_inner slots k (by omega) r c hc
    rw [List.range'_succ, List.foldl_cons]
    have hprev : prevSlot slots (k + 1) = slots.getD k none := by simp [prevSlot]
    have := ih (k + 1) (groupStep slots (r, c) k).1 (groupStep slots (r, c) k).2
      (by omega) (by rw [hprev]; exact h1)
    rw [hd, ← h2, ← this]

/-- The loop of `group()` computes `runsFrom` from no group in progress. -/
theorem groupSlots_eq (slots : SlotsState) : groupSlots slots = runsFrom none slots := by
  unfold groupSlots
  cases hn : slots.length with
  | zero =>
    have : slots = [] := List.length_eq_zero.mp hn
    subst this
    simp [runsFrom]
  | succ m =>
    rw [List.range_eq_range']
    have := group_loop slots m 0 [] none (by omega) (by simp [prevSlot, Pending])
    simpa using this

/-! ## Validity of the grouping -/

theorem expandGroups_append (gs hs : ActivityGroupsState) :
    expandGroups (gs ++ hs) = expandGroups gs ++ expandGroups hs := by
  simp [expandGroups]

theorem expandGroups_cons (g : ActivityGroup) (gs : ActivityGroupsState) :
    expandGroups (g :: gs) = List.replicate g.length g.activity ++ expandGroups gs := by
  simp [expandGroups]

theorem length_expandGroups (gs : ActivityGroupsState) :
    (expandGroups gs).length = totalLength gs := by
  induction gs with
  | nil => simp [expandGroups, totalLength]
  | cons g gs ih =>
    rw [expandGroups_cons, List.length_append, ih]
    simp [totalLength]

theorem expandGroups_runsFrom (l : List Slot) :
    ∀ c : Option ActivityGroup, expandGroups (runsFrom c l) = expandGroups c.toList ++ l := by
  induction l with
  | nil => intro c; simp [runsFrom]
  | cons x tl ih =>
    intro c
    cases x with
    | none =>
      rw [runsFrom, expandGroups_append, expandGroups_cons, ih none]
      simp [expandGroups]
    | some a =>
      cases c with
      | none =>
        rw [runsFrom, ih]
        simp [expandGroups]
      | some g =>
        by_cases hg : g.activity = some a
        · rw [runsFrom, if_pos hg, ih]
          simp [expandGroups, List.replicate_succ', hg]
        · rw [runsFrom, if_neg hg, expandGroups_cons, ih]
          simp [expandGroups]

theorem expandGroups_group (s : Strategy) : expandGroups s.group = s.slotsState := by
  rw [Strategy.group, groupSlots_eq, expandGroups_runsFrom]
  simp [expandGroups]

theorem totalLength_group (s : Strategy) : totalLength s.group = s.slotsState.length := by
  rw [← length_expandGroups, expandGroups_group]

/-- Claim C1 (grouping validity).  For every slot array, of any length `N`
including `0`, the lengths of the groups returned by `group()` sum to `N`, and
writing each group's activity value `length` times, in order, gives back the
slot array. -/
theorem group_valid (s : Strategy) :
    totalLength s.group = s.slotsState.length ∧ expandGroups s.group = s.slotsState :=
  ⟨totalLength_group s, expandGroups_group s⟩

/-! ## Unassigned slots never merge -/

theorem length_of_mem_runsFrom (l : List Slot) :
    ∀ c : Option ActivityGroup,
      (∀ g, c = some g → g.activity = none → g.length = 1) →
      ∀ g ∈ runsFrom c l, g.activity = none → g.length = 1 := by
  induction l with
  | nil =>
    intro c hc g hg
    cases c with
    | none => simp [runsFrom] at hg
    | some g0 =>
      simp only [runsFrom, Option.toList, List.mem_singleton] at hg
      subst hg
      exact hc g rfl
  | cons x tl ih =>
    intro c hc g hg hnone
    cases x with
    | none =>
      rw [runsFrom, List.mem_append, List.mem_cons] at hg
      rcases hg with hg | hg | hg
      · cases c with
        | none => simp at hg
        | some g0 =>
          simp only [Option.toList, List.mem_singleton] at hg
          subst hg
          exact hc g rfl hnone
      · subst hg; rfl
      · exact ih none (by simp) g hg hnone
    | some a =>
      cases c with
      | none =>
        rw [runsFrom] at hg
        exact ih _ (by intro g0 h0; cases h0; simp) g hg hnone
      | some g0 =>
        by_cases h0 : g0.activity = some a
        · rw [runsFrom, if_pos h0] at hg
          exact ih _ (by intro g1 h1; cases h1; simp [h0]) g hg hnone
        · rw [runsFrom, if_neg h0, List.mem_cons] at hg
          rcases hg with hg | hg
          · subst hg; exact hc g rfl hnone
          · exact ih _ (by intro g1 h1; cases h1; simp) g hg hnone

theorem countP_runsFrom (l : List Slot) :
    ∀ c : Option ActivityGroup,
      (runsFrom c l).countP (fun g => g.activity.isNone)
        = c.toList.countP (fun g => g.activity.isNone) + l.countP (fun x => x.isNone) := by
  induction l with
  | nil => intro c; simp [runsFrom]
  | cons x tl ih =>
    intro c
    cases x with
    | none =>
      rw [runsFrom, List.countP_append, List.countP_cons, ih none]
      simp [List.countP_cons]
    | some a =>
      cases c with
      | none =>
        rw [runsFrom, ih]
        simp [List.countP_cons]
      | some g =>
        by_cases hg : g.activity = some a
        · rw [runsFrom, if_pos hg, ih]
          simp [List.countP_cons, hg]
        · rw [runsFrom, if_neg hg, List.countP_cons, ih]
          simp [List.countP_cons]
          omega

theorem runsFrom_append_none (l₁ l₂ : List Slot) :
    ∀ c : Option ActivityGroup,
      runsFrom c (l₁ ++ none :: l₂)
        = runsFrom c l₁ ++ { activity := none, length := 1 } :: runsFrom none l₂ := by
  induction l₁ with
  | nil => intro c; simp [runsFrom]
  | cons x tl ih =>
    intro c
    cases x with
    | none => simp [runsFrom, ih]
    | some a =>
      cases c with
      | none => simp [runsFrom, ih]
      | some g =>
        by_cases hg : g.activity = some a
        · simp [runsFrom, ih, hg]
        · simp [runsFrom, ih, hg]

theorem runsFrom_replicate_none (k : Nat) (post : List Slot) :
    runsFrom none (List.replicate k none ++ post)
      = List.replicate k { activity := none, length := 1 } ++ runsFrom none post := by
  induction k with
  | zero => simp
  | succ k ih => simp [List.replicate_succ, runsFrom, ih]

/-- Claim C2 (unassigned never merges).  For every slot array: every group
returned by `group()` whose activity is none has length exactly `1`; there are
as many such groups as unassigned slots; and a run of `k ≥ 1` consecutive
unassigned slots, between any slots `pre` and `post`, contributes exactly `k`
singleton groups `{none, 1}` between the groups of `pre` and those of
`post`. -/
theorem group_unassigned_never_merges (s : Strategy) :
    (∀ g ∈ s.group, g.activity = none → g.length = 1) ∧
    (s.group.countP fun g => g.activity.isNone) = (s.slotsState.countP fun x => x.isNone) ∧
    (∀ (pre post : List Slot) (k : Nat), 0 < k →
      s.slotsState = pre ++ List.replicate k none ++ post →
      s.group = groupSlots pre ++ List.replicate k { activity := none, length := 1 }
        ++ groupSlots post) := by
  refine ⟨?_, ?_, ?_⟩
  · rw [Strategy.group, groupSlots_eq]
    exact length_of_mem_runsFrom _ none (by simp)
  · rw [Strategy.group, groupSlots_eq, countP_runsFrom]
    simp
  · intro pre post k hk hs
    obtain ⟨j, rfl⟩ : ∃ j, k = j + 1 := ⟨k - 1, by omega⟩
    rw [Strategy.group, hs, groupSlots_eq, groupSlots_eq, groupSlots_eq, List.replicate_succ,
      List.append_assoc, List.cons_append, runsFrom_append_none, runsFrom_replicate_none]
    simp [List.replicate_succ]

/-- The theorem `group_unassigned_never_merges` at the slots `[A, _, _, B]`:
the run of two unassigned slots gives two singleton groups. -/
theorem group_unassigned_never_merges_witness :
    (Strategy.mk [] [some ⟨"A"⟩, none, none, some ⟨"B"⟩]).group
      = groupSlots [some ⟨"A"⟩] ++ List.replicate 2 { activity := none, length := 1 }
        ++ groupSlots [some ⟨"B"⟩] :=
  (group_unassigned_never_merges (Strategy.mk [] [some ⟨"A"⟩, none, none, some ⟨"B"⟩])).2.2
    [some ⟨"A"⟩] [some ⟨"B"⟩] 2 (by decide) (by decide)

/-! ## Runs of one assigned activity merge -/

theorem runsFrom_some_head (l : List Slot) :
    ∀ g : ActivityGroup, ∃ n rest,
      runsFrom (some g) l = { activity := g.activity, length := n } :: rest := by
  induction l with
  | nil => intro g; exact ⟨g.length, [], by simp [runsFrom]⟩
  | cons x tl ih =>
    intro g
    cases x with
    | none => exact ⟨g.length, _, by simp [runsFrom]; rfl⟩
    | some a =>
      by_cases hg : g.activity = some a
      · obtain ⟨n, rest, h⟩ := ih { activity := g.activity, length := g.length + 1 }
        exact ⟨n, rest, by rw [runsFrom, if_pos hg, h]⟩
      · exact ⟨g.length, _, by rw [runsFrom, if_neg hg]⟩

theorem chain'_runsFrom (l : List Slot) :
    ∀ c : Option ActivityGroup,
      List.Chain' (fun g h : ActivityGroup => ¬ (g.activity ≠ none ∧ g.activity = h.activity))
        (runsFrom c l) := by
  induction l with
  | nil => intro c; cases c <;> simp [runsFrom]
  | cons x tl ih =>
    intro c
    cases x with
    | none =>
      have h1 : List.Chain' (fun g h : ActivityGroup =>
          ¬ (g.activity ≠ none ∧ g.activity = h.activity))
          ({ activity := none, length := 1 } :: runsFrom none tl) := by
        rw [List.chain'_cons']
        exact ⟨by intro y _; simp, ih none⟩
      cases c with
      | none => simpa [runsFrom] using h1
      | some g =>
        rw [runsFrom]
        simp only [Option.toList, List.singleton_append]
        rw [List.chain'_cons']
        refine ⟨?_, h1⟩
        intro y hy
        simp only [List.head?_cons, Option.mem_def, Option.some.injEq] at hy
        subst hy
        intro h
        exact h.1 h.2
    | some a =>
      cases c with
      | none => rw [runsFrom]; exact ih _
      | some g =>
        by_cases hg : g.activity = some a
        · rw [runsFrom, if_pos hg]; exact ih _
        · rw [runsFrom, if_neg hg, List.chain'_cons']
          refine ⟨?_, ih _⟩
          obtain ⟨n, rest, h⟩ := runsFrom_some_head tl { activity := some a, length := 1 }
          intro y hy
          rw [h] at hy
          simp only [List.head?_cons, Option.mem_def, Option.some.injEq] at hy
          subst hy
          intro h'
          exact hg h'.2

theorem runsFrom_replicate_same (a : Activity) (post : List Slot) (k : Nat) :
    ∀ n : Nat,
      runsFrom (some { activity := some a, length := n }) (List.replicate k (some a) ++ post)
        = runsFrom (some { activity := some a, length := n + k }) post := by
  induction k with
  | zero => intro n; simp
  | succ k ih =>
    intro n
    rw [List.replicate_succ, List.cons_append, runsFrom, if_pos rfl, ih]
    congr 3
    dsimp only
    omega

theorem runsFrom_some_of_head_ne (g : ActivityGroup) (post : List Slot)
    (h : post.head? ≠ some g.activity) :
    runsFrom (some g) post = g :: runsFrom none post := by
  cases post with
  | nil => simp [runsFrom]
  | cons x tl =>
    cases x with
    | none => simp [runsFrom]
    | some b =>
      have hb : ¬ g.activity = some b := by
        intro hb
        exact h (by simp [hb])
      simp only [runsFrom, if_neg hb]

theorem runsFrom_append_assigned (a : Activity) (rest : List Slot) (pre : List Slot) :
    ∀ c : Option ActivityGroup,
      pre.getLast? ≠ some (some a) →
      (pre = [] → ∀ g, c = some g → g.activity ≠ some a) →
      runsFrom c (pre ++ some a :: rest) = runsFrom c pre ++ runsFrom none (some a :: rest) := by
  induction pre with
  | nil =>
    intro c _ hc
    cases c with
    | none => simp [runsFrom]
    | some g =>
      have hg := hc rfl g rfl
      simp [runsFrom, hg]
  | cons x tl ih =>
    intro c hlast _
    have hlast' : tl.getLast? ≠ some (some a) := by
      cases tl with
      | nil => simp
      | cons y tl' => simpa [List.getLast?_cons_cons] using hlast
    have hx : tl = [] → x ≠ some a := by
      intro h
      subst h
      simpa using hlast
    cases x with
    | none =>
      rw [List.cons_append]; simp only [runsFrom]
      rw [ih none hlast' (by simp)]
      simp [runsFrom]
    | some b =>
      have hb : tl = [] → b ≠ a := fun h hba => hx h (by rw [hba])
      cases c with
      | none =>
        rw [List.cons_append]; simp only [runsFrom]
        rw [ih _ hlast']
        · simp only [runsFrom]
        · intro h g hg
          cases hg
          simpa using hb h
      | some g =>
        by_cases hg : g.activity = some b
        · rw [List.cons_append]; simp only [runsFrom, if_pos hg]
          rw [ih _ hlast']
          · simp only [runsFrom]
          · intro h g1 hg1
            cases hg1
            simpa [hg] using hb h
        · rw [List.cons_append]; simp only [runsFrom, if_neg hg]
          rw [ih _ hlast']
          · simp [runsFrom]
          · intro h g1 hg1
            cases hg1
            simpa using hb h

/-- Claim C3 (assigned runs merge).  For every slot array: no two adjacent
groups returned by `group()` are both assigned to equal activities; a maximal
run of `k ≥ 1` slots assigned to one activity `a` (the slot before it, if any,
and the slot after it, if any, are not assigned to `a`) becomes the single
group `{a, k}` between the groups of the slots before and those of the slots
after; and for distinct activities `A`, `B` the array `[A, A, A, B, A]`
groups to `[{A, 3}, {B, 1}, {A, 1}]`. -/
theorem group_assigned_runs_merge (s : Strategy) :
    List.Chain' (fun g h : ActivityGroup => ¬ (g.activity ≠ none ∧ g.activity = h.activity))
      s.group ∧
    (∀ (pre post : List Slot) (a : Activity) (k : Nat), 0 < k →
      s.slotsState = pre ++ List.replicate k (some a) ++ post →
      pre.getLast? ≠ some (some a) → post.head? ≠ some (some a) →
      s.group = groupSlots pre ++ [{ activity := some a, length := k }] ++ groupSlots post) ∧
    (∀ A B : Activity, A ≠ B →
      s.slotsState = [some A, some A, some A, some B, some A] →
      s.group = [{ activity := some A, length := 3 }, { activity := some B, length := 1 },
        { activity := some A, length := 1 }]) := by
  refine ⟨?_, ?_, ?_⟩
  · rw [Strategy.group, groupSlots_eq]
    exact chain'_runsFrom _ none
  · intro pre post a k hk hs hpre hpost
    obtain ⟨j, rfl⟩ : ∃ j, k = j + 1 := ⟨k - 1, by omega⟩
    rw [Strategy.group, hs, groupSlots_eq, groupSlots_eq, groupSlots_eq, List.replicate_succ,
      List.append_assoc, List.cons_append,
      runsFrom_append_assigned a _ pre none hpre (by simp)]
    simp only [runsFrom]
    rw [runsFrom_replicate_same, runsFrom_some_of_head_ne _ post (by simpa using hpost)]
    simp [Nat.add_comm]
  · intro A B hAB hs
    have hBA : B ≠ A := fun h => hAB h.symm
    rw [Strategy.group, hs, groupSlots_eq]
    simp [runsFrom, hAB, hBA]

/-- The theorem `group_assigned_runs_merge` at the slots `[A, A, A, B, A]` with
the activities named "A" and "B". -/
theorem group_assigned_runs_merge_witness :
    (Strategy.mk [] [some ⟨"A"⟩, some ⟨"A"⟩, some ⟨"A"⟩, some ⟨"B"⟩, some ⟨"A"⟩]).group
      = [{ activity := some ⟨"A"⟩, length := 3 }, { activity := some ⟨"B"⟩, length := 1 },
        { activity := some ⟨"A"⟩, length := 1 }] :=
  (group_assigned_runs_merge
    (Strategy.mk [] [some ⟨"A"⟩, some ⟨"A"⟩, some ⟨"A"⟩, some ⟨"B"⟩, some ⟨"A"⟩])).2.2
    ⟨"A"⟩ ⟨"B"⟩ (by decide) rfl

/-! ## Index translation -/

theorem totalLength_append (gs hs : ActivityGroupsState) :
    totalLength (gs ++ hs) = totalLength gs + totalLength hs := by
  simp [totalLength]

theorem groupStart_succ (gs : ActivityGroupsState) (i : Nat) (hi : i < gs.length) :
    groupStart gs (i + 1) = groupStart gs i + (groupAt gs i).length := by
  unfold groupStart groupAt
  rw [List.take_succ, totalLength_append, List.getD_eq_getElem gs _ hi,
    List.getElem?_eq_getElem hi]
  simp [totalLength]

theorem groupStart_length (gs : ActivityGroupsState) :
    groupStart gs gs.length = totalLength gs := by
  simp [groupStart]

theorem groupStart_le (gs : ActivityGroupsState) (i : Nat) :
    groupStart gs i ≤ totalLength gs := by
  have h := totalLength_append (gs.take i) (gs.drop i)
  rw [List.take_append_drop] at h
  unfold groupStart
  omega

theorem groupStart_mono (gs : ActivityGroupsState) {i j : Nat} (h : i ≤ j) :
    groupStart gs i ≤ groupStart gs j := by
  have h1 := groupStart_le (gs.take j) i
  unfold groupStart at h1 ⊢
  rwa [List.take_take, Nat.min_eq_left h] at h1

theorem lastSlotIndex_loop (gs : ActivityGroupsState) :
    ∀ n : Nat, n ≤ gs.length →
      (List.range n).foldl (lastSlotIndexStep gs) (-1) = (groupStart gs n : Int) - 1 := by
  intro n
  induction n with
  | zero => intro _; simp [groupStart, totalLength]
  | succ n ih =>
    intro hn
    rw [List.range_succ, List.foldl_append, ih (by omega), groupStart_succ gs n (by omega)]
    simp only [List.foldl_cons, List.foldl_nil, lastSlotIndexStep, Int.ofNat_eq_coe]
    push_cast
    omega

theorem groupIndexLoop_spec (gs : ActivityGroupsState) (slotIndex : Int) :
    ∀ m k : Nat, k + m = gs.length →
      ((groupStart gs k : Int) ≤ slotIndex → slotIndex < (totalLength gs : Int) →
        ∃ i : Nat, k ≤ i ∧ i < gs.length ∧
          groupIndexLoop gs slotIndex (List.range' k m) ((groupStart gs k : Int) - 1)
            = some (i : Int) ∧
          (groupStart gs i : Int) ≤ slotIndex ∧ slotIndex < (groupStart gs (i + 1) : Int)) ∧
      (slotIndex < (groupStart gs k : Int) ∨ (totalLength gs : Int) ≤ slotIndex →
        groupIndexLoop gs slotIndex (List.range' k m) ((groupStart gs k : Int) - 1) = none) := by
  intro m
  induction m with
  | zero =>
    intro k hk
    have hk' : k = gs.length := by omega
    subst hk'
    rw [groupStart_length]
    refine ⟨fun h1 h2 => absurd h1 (by omega), fun _ => by simp [groupIndexLoop]⟩
  | succ m ih =>
    intro k hk
    have hlt : k < gs.length := by omega
    have hsucc := groupStart_succ gs k hlt
    have hle := groupStart_le gs (k + 1)
    obtain ⟨ih1, ih2⟩ := ih (k + 1) (by omega)
    have hend : (groupStart gs k : Int) - 1 + 1 + Int.ofNat (groupAt gs k).length - 1
        = (groupStart gs (k + 1) : Int) - 1 := by
      rw [hsucc]; push_cast; simp only [Int.ofNat_eq_coe]; omega
    rw [List.range'_succ]
    simp only [groupIndexLoop, hend]
    by_cases hin : slotIndex ≥ (groupStart gs k : Int) - 1 + 1 ∧
        slotIndex ≤ (groupStart gs (k + 1) : Int) - 1
    · rw [if_pos hin]
      refine ⟨fun _ _ => ⟨k, le_refl k, hlt, rfl, by omega, by omega⟩, fun h => ?_⟩
      exfalso
      have : (groupStart gs (k + 1) : Int) ≤ (totalLength gs : Int) := by exact_mod_cast hle
      omega
    · rw [if_neg hin]
      refine ⟨fun h1 h2 => ?_, fun h => ?_⟩
      · obtain ⟨i, hi1, hi2, hi3, hi4⟩ := ih1 (by omega) h2
        exact ⟨i, by omega, hi2, hi3, hi4⟩
      · apply ih2
        rcases h with h | h
        · left
          have : (groupStart gs k : Int) ≤ (groupStart gs (k + 1) : Int) := by
            rw [hsucc]; push_cast; omega
          omega
        · right; exact h

theorem pos_of_mem_runsFrom (l : List Slot) :
    ∀ c : Option ActivityGroup, (∀ g, c = some g → 0 < g.length) →
      ∀ g ∈ runsFrom c l, 0 < g.length := by
  induction l with
  | nil =>
    intro c hc g hg
    cases c with
    | none => simp [runsFrom] at hg
    | some g0 =>
      simp only [runsFrom, Option.toList, List.mem_singleton] at hg
      subst hg
      exact hc g rfl
  | cons x tl ih =>
    intro c hc g hg
    cases x with
    | none =>
      rw [runsFrom, List.mem_append, List.mem_cons] at hg
      rcases hg with hg | hg | hg
      · cases c with
        | none => simp at hg
        | some g0 =>
          simp only [Option.toList, List.mem_singleton] at hg
          subst hg
          exact hc g rfl
      · subst hg; exact Nat.one_pos
      · exact ih none (by simp) g hg
    | some a =>
      cases c with
      | none =>
        rw [runsFrom] at hg
        exact ih _ (by intro g0 h0; cases h0; exact Nat.one_pos) g hg
      | some g0 =>
        by_cases h0 : g0.activity = some a
        · rw [runsFrom, if_pos h0] at hg
          exact ih _ (by intro g1 h1; cases h1; exact Nat.succ_pos _) g hg
        · rw [runsFrom, if_neg h0, List.mem_cons] at hg
          rcases hg with hg | hg
          · subst hg; exact hc g rfl
          · exact ih _ (by intro g1 h1; cases h1; exact Nat.one_pos) g hg

theorem groupAt_length_pos (slots : SlotsState) (i : Nat) (hi : i < (groupSlots slots).length) :
    0 < (groupAt (groupSlots slots) i).length := by
  have hmem : groupAt (groupSlots slots) i ∈ groupSlots slots := by
    unfold groupAt
    rw [List.getD_eq_getElem _ _ hi]
    exact List.getElem_mem hi
  exact pos_of_mem_runsFrom slots none (by simp) _ (groupSlots_eq slots ▸ hmem)

theorem groupStart_interval_unique (gs : ActivityGroupsState) (x : Int) {i j : Nat}
    (hi1 : (groupStart gs i : Int) ≤ x) (hi2 : x < (groupStart gs (i + 1) : Int))
    (hj1 : (groupStart gs j : Int) ≤ x) (hj2 : x < (groupStart gs (j + 1) : Int)) : i = j := by
  rcases Nat.lt_trichotomy i j with h | h | h
  · have : (groupStart gs (i + 1) : Int) ≤ (groupStart gs j : Int) := by
      exact_mod_cast groupStart_mono gs (show i + 1 ≤ j by omega)
    omega
  · exact h
  · have : (groupStart gs (j + 1) : Int) ≤ (groupStart gs i : Int) := by
      exact_mod_cast groupStart_mono gs (show j + 1 ≤ i by omega)
    omega

theorem groupIndexForSlotIndex_eq (s : Strategy) (slotIndex : Int) :
    s.groupIndexForSlotIndex slotIndex
      = groupIndexLoop s.group slotIndex (List.range' 0 s.group.length)
          ((groupStart s.group 0 : Int) - 1) := by
  simp [Strategy.groupIndexForSlotIndex, List.range_eq_range', groupStart, totalLength]

theorem startSlotIndexForGroupIndex_eq (s : Strategy) (g : Int) (h0 : 0 ≤ g)
    (hg : g < (s.group.length : Int)) :
    s.startSlotIndexForGroupIndex g = some (groupStart s.group g.toNat : Int) := by
  have hlt : g.toNat < s.group.length := by omega
  have hguard : ¬ (g < 0 ∨ g.toNat ≥ s.group.length) := by omega
  unfold Strategy.startSlotIndexForGroupIndex
  simp only [if_neg hguard]
  rw [lastSlotIndex_loop s.group (g.toNat + 1) (by omega), groupStart_succ s.group g.toNat hlt]
  simp only [Int.ofNat_eq_coe, Option.some.injEq]
  push_cast
  omega

/-- Claim C4 (index inverse).  For every slot array and every valid group index
`g` (`0 ≤ g <` number of groups returned by `group()`),
`startSlotIndexForGroupIndex(g)` is present with some value `st`, and
`groupIndexForSlotIndex(st)` is present and equals `g`. -/
theorem groupIndex_of_startSlotIndex (s : Strategy) (g : Int) (h0 : 0 ≤ g)
    (hg : g < (s.group.length : Int)) :
    ∃ st : Int, s.startSlotIndexForGroupIndex g = some st ∧
      s.groupIndexForSlotIndex st = some g := by
  have hlt : g.toNat < s.group.length := by omega
  refine ⟨(groupStart s.group g.toNat : Int), startSlotIndexForGroupIndex_eq s g h0 hg, ?_⟩
  have hpos := groupAt_length_pos s.slotsState g.toNat hlt
  have hsucc := groupStart_succ s.group g.toNat hlt
  have hle := groupStart_le s.group (g.toNat + 1)
  have hin : (groupStart s.group g.toNat : Int) < (groupStart s.group (g.toNat + 1) : Int) := by
    rw [hsucc]
    push_cast
    have : 0 < (groupAt s.group g.toNat).length := hpos
    omega
  obtain ⟨i, _, _, hi3, hi4, hi5⟩ :=
    (groupIndexLoop_spec s.group (groupStart s.group g.toNat : Int) s.group.length 0
      (by omega)).1
      (by exact_mod_cast groupStart_mono s.group (Nat.zero_le _))
      (by have : (groupStart s.group (g.toNat + 1) : Int) ≤ (totalLength s.group : Int) := by
            exact_mod_cast hle
          omega)
  have hig : i = g.toNat := groupStart_interval_unique s.group _ hi4 hi5 (le_refl _) hin
  rw [groupIndexForSlotIndex_eq, hi3, hig]
  congr 1
  omega

/-- The theorem `groupIndex_of_startSlotIndex` at the slots `[A, A, _, B]` and
the group index `2`. -/
theorem groupIndex_of_startSlotIndex_witness :
    ∃ st : Int,
      (Strategy.mk [] [some ⟨"A"⟩, some ⟨"A"⟩, none, some ⟨"B"⟩]).startSlotIndexForGroupIndex 2
        = some st ∧
      (Strategy.mk [] [some ⟨"A"⟩, some ⟨"A"⟩, none, some ⟨"B"⟩]).groupIndexForSlotIndex st
        = some 2 :=
  groupIndex_of_startSlotIndex (Strategy.mk [] [some ⟨"A"⟩, some ⟨"A"⟩, none, some ⟨"B"⟩]) 2
    (by decide) (by decide)

/-- Claim C5.  For every slot array and every integer `g`,
`startSlotIndexForGroupIndex(g)` is absent if and only if `g` is outside
`[0, groupCount)`, where `groupCount` is the size of `group()`; otherwise it
is exactly the sum of the lengths of the groups `0 .. g - 1`, which is `0`
for `g = 0`. -/
theorem startSlotIndexForGroupIndex_spec (s : Strategy) (g : Int) :
    (s.startSlotIndexForGroupIndex g = none ↔ (g < 0 ∨ (s.group.length : Int) ≤ g)) ∧
    (0 ≤ g → g < (s.group.length : Int) →
      s.startSlotIndexForGroupIndex g
        = some (Int.ofNat ((s.group.take g.toNat).map fun x => x.length).sum)) ∧
    (0 < s.group.length → s.startSlotIndexForGroupIndex 0 = some 0) := by
  refine ⟨⟨fun h => ?_, fun h => ?_⟩, fun h0 hg => ?_, fun h => ?_⟩
  · by_contra hcon
    rw [startSlotIndexForGroupIndex_eq s g (by omega) (by omega)] at h
    exact Option.noConfusion h
  · have hguard : g < 0 ∨ g.toNat ≥ s.group.length := by omega
    simp only [Strategy.startSlotIndexForGroupIndex, if_pos hguard]
  · exact startSlotIndexForGroupIndex_eq s g h0 hg
  · rw [startSlotIndexForGroupIndex_eq s 0 (le_refl _) (by exact_mod_cast h)]
    simp [groupStart, totalLength]

/-- The theorem `startSlotIndexForGroupIndex_spec` at the slots `[A, A, _, B]`
and the group index `2`, whose start is the sum `2 + 1` of the lengths of the
groups `0` and `1`. -/
theorem startSlotIndexForGroupIndex_spec_witness :
    (Strategy.mk [] [some ⟨"A"⟩, some ⟨"A"⟩, none, some ⟨"B"⟩]).startSlotIndexForGroupIndex 2
      = some (Int.ofNat (((Strategy.mk [] [some ⟨"A"⟩, some ⟨"A"⟩, none, some ⟨"B"⟩]).group.take
          (2 : Int).toNat).map fun x => x.length).sum) :=
  (startSlotIndexForGroupIndex_spec
    (Strategy.mk [] [some ⟨"A"⟩, some ⟨"A"⟩, none, some ⟨"B"⟩]) 2).2.1 (by decide) (by decide)

/-- Claim C6.  For every slot array of length `N` and every integer `x`,
`groupIndexForSlotIndex(x)` is absent if and only if `x` is outside `[0, N)`;
otherwise it is the unique group index `i` with
`start_i ≤ x ≤ start_i + length_i - 1`, where `start_i` is the sum of the
lengths of the groups `0 .. i - 1`. -/
theorem groupIndexForSlotIndex_spec (s : Strategy) (x : Int) :
    (s.groupIndexForSlotIndex x = none ↔ (x < 0 ∨ (s.slotsState.length : Int) ≤ x)) ∧
    (0 ≤ x → x < (s.slotsState.length : Int) →
      ∃ i : Nat, i < s.group.length ∧ s.groupIndexForSlotIndex x = some (i : Int) ∧
        ((groupStart s.group i : Int) ≤ x ∧
          x ≤ (groupStart s.group i : Int) + ((groupAt s.group i).length : Int) - 1) ∧
        ∀ j : Nat, j < s.group.length →
          (groupStart s.group j : Int) ≤ x →
          x ≤ (groupStart s.group j : Int) + ((groupAt s.group j).length : Int) - 1 →
          j = i) := by
  have htot : totalLength s.group = s.slotsState.length := totalLength_group s
  obtain ⟨h1, h2⟩ := groupIndexLoop_spec s.group x s.group.length 0 (by omega)
  have hz : groupStart s.group 0 = 0 := by simp [groupStart, totalLength]
  rw [← groupIndexForSlotIndex_eq, hz, htot] at h1 h2
  have hpresent : 0 ≤ x → x < (s.slotsState.length : Int) →
      ∃ i : Nat, i < s.group.length ∧ s.groupIndexForSlotIndex x = some (i : Int) ∧
        ((groupStart s.group i : Int) ≤ x ∧
          x ≤ (groupStart s.group i : Int) + ((groupAt s.group i).length : Int) - 1) ∧
        ∀ j : Nat, j < s.group.length →
          (groupStart s.group j : Int) ≤ x →
          x ≤ (groupStart s.group j : Int) + ((groupAt s.group j).length : Int) - 1 →
          j = i := by
    intro hx0 hxN
    obtain ⟨i, _, hi2, hi3, hi4, hi5⟩ := h1 (by exact_mod_cast hx0) hxN
    have hsucc := groupStart_succ s.group i hi2
    refine ⟨i, hi2, hi3, ⟨hi4, ?_⟩, ?_⟩
    · rw [hsucc] at hi5
      push_cast at hi5
      omega
    · intro j hj hj1 hj2
      have hsuccj := groupStart_succ s.group j hj
      refine groupStart_interval_unique s.group x hj1 ?_ hi4 hi5
      rw [hsuccj]
      push_cast
      omega
  refine ⟨⟨fun h => ?_, fun h => h2 (by exact_mod_cast h)⟩, hpresent⟩
  by_contra hcon
  obtain ⟨i, _, hi, _⟩ := hpresent (by omega) (by omega)
  rw [hi] at h
  exact Option.noConfusion h

/-- The theorem `groupIndexForSlotIndex_spec` at the slots `[A, A, _, B]` and the
slot index `3`, which lies in the range of one group. -/
theorem groupIndexForSlotIndex_spec_witness :
    ∃ i : Nat, i < (Strategy.mk [] [some ⟨"A"⟩, some ⟨"A"⟩, none, some ⟨"B"⟩]).group.length ∧
      (Strategy.mk [] [some ⟨"A"⟩, some ⟨"A"⟩, none, some ⟨"B"⟩]).groupIndexForSlotIndex 3
        = some (i : Int) :=
  let ⟨i, hi, hres, _⟩ :=
    (groupIndexForSlotIndex_spec
      (Strategy.mk [] [some ⟨"A"⟩, some ⟨"A"⟩, none, some ⟨"B"⟩]) 3).2 (by decide) (by decide)
  ⟨i, hi, hres⟩

/-! ## Slot reads -/

theorem hasSlotIndex_iff (s : Strategy) (index : Int) :
    s.hasSlotIndex index = true ↔ 0 ≤ index ∧ index < (s._slotsState.length : Int) := by
  simp only [Strategy.hasSlotIndex, Strategy.slotsState, Bool.and_eq_true, decide_eq_true_eq]
  omega

theorem hasSlotIndex_natCast (s : Strategy) (i : Nat) :
    s.hasSlotIndex (i : Int) = true ↔ i < s._slotsState.length := by
  rw [hasSlotIndex_iff]
  omega

theorem slotAtIndex_natCast (s : Strategy) (i : Nat) :
    s.slotAtIndex (i : Int) = s._slotsState.getD i none := by
  unfold Strategy.slotAtIndex
  by_cases h : s.hasSlotIndex (i : Int) = true
  · simp [h]
  · have hlen : s._slotsState.length ≤ i := by
      rw [hasSlotIndex_natCast] at h
      omega
    simp only [h, Bool.not_false, if_true]
    rw [List.getD_eq_default _ _ hlen]

/-- Claim C10 (read contract of `slotAtIndex`).  For every slot array of length
`N` and every integer `index`: outside `[0, N)` (so at `-1`) the result is
unassigned, and inside `[0, N)` it is the slot value stored at that
position. -/
theorem slotAtIndex_spec (s : Strategy) (index : Int) :
    (index < 0 ∨ (s.slotsState.length : Int) ≤ index → s.slotAtIndex index = none) ∧
    (0 ≤ index → index < (s.slotsState.length : Int) →
      s.slotsState[index.toNat]? = some (s.slotAtIndex index)) ∧
    s.slotAtIndex (-1) = none := by
  refine ⟨fun h => ?_, fun h0 hN => ?_, ?_⟩
  · have : ¬ s.hasSlotIndex index = true := by
      rw [hasSlotIndex_iff]
      simp only [Strategy.slotsState] at h
      omega
    simp [Strategy.slotAtIndex, this]
  · have hin : s.hasSlotIndex index = true := (hasSlotIndex_iff s index).2 ⟨h0, hN⟩
    have hlt : index.toNat < s._slotsState.length := by
      simp only [Strategy.slotsState] at hN
      omega
    simp only [Strategy.slotAtIndex, hin, Bool.not_true, Bool.false_eq_true, if_false,
      Strategy.slotsState]
    rw [List.getD_eq_getElem _ _ hlt, List.getElem?_eq_getElem hlt]
  · simp [Strategy.slotAtIndex, Strategy.hasSlotIndex]

/-- The theorem `slotAtIndex_spec` at the slots `[A, _, B]`: index `3` is out of
range and reads unassigned, index `2` reads the stored `B`. -/
theorem slotAtIndex_spec_witness :
    (Strategy.mk [] [some ⟨"A"⟩, none, some ⟨"B"⟩]).slotAtIndex 3 = none ∧
    (Strategy.mk [] [some ⟨"A"⟩, none, some ⟨"B"⟩]).slotsState[(2 : Int).toNat]?
      = some ((Strategy.mk [] [some ⟨"A"⟩, none, some ⟨"B"⟩]).slotAtIndex 2) :=
  ⟨(slotAtIndex_spec (Strategy.mk [] [some ⟨"A"⟩, none, some ⟨"B"⟩]) 3).1 (by decide),
    (slotAtIndex_spec (Strategy.mk [] [some ⟨"A"⟩, none, some ⟨"B"⟩]) 2).2.1
      (by decide) (by decide)⟩

/-! ## Range fill -/

theorem copySlot_natCast (s : Strategy) (i j : Nat) (hi : i < s._slotsState.length)
    (hj : j < s._slotsState.length) :
    s.copySlot (i : Int) (j : Int)
      = { s with _slotsState := s._slotsState.set j (s._slotsState.getD i none) } := by
  have h1 := (hasSlotIndex_natCast s i).2 hi
  have h2 := (hasSlotIndex_natCast s j).2 hj
  simp [Strategy.copySlot, h1, h2]

theorem fill_loop (s : Strategy) (src lo : Nat) (hsrc : src < s._slotsState.length) :
    ∀ n : Nat, lo + n ≤ s._slotsState.length →
      ((List.range n).foldl
          (fun st k => st.copySlot (src : Int) ((lo : Int) + Int.ofNat k)) s).activities
        = s.activities ∧
      ((List.range n).foldl
          (fun st k => st.copySlot (src : Int) ((lo : Int) + Int.ofNat k)) s)._slotsState.length
        = s._slotsState.length ∧
      ∀ i : Nat,
        ((List.range n).foldl
            (fun st k => st.copySlot (src : Int) ((lo : Int) + Int.ofNat k)) s)._slotsState.getD
            i none
          = if lo ≤ i ∧ i < lo + n then s._slotsState.getD src none
            else s._slotsState.getD i none := by
  intro n
  induction n with
  | zero =>
    intro _
    refine ⟨rfl, rfl, fun i => ?_⟩
    rw [if_neg (by omega)]
    rfl
  | succ n ih =>
    intro hn
    obtain ⟨ha, hl, hget⟩ := ih (by omega)
    rw [List.range_succ, List.foldl_append]
    simp only [List.foldl_cons, List.foldl_nil]
    generalize (List.range n).foldl
      (fun st k => st.copySlot (src : Int) ((lo : Int) + Int.ofNat k)) s = st at ha hl hget ⊢
    have hcast : (lo : Int) + Int.ofNat n = ((lo + n : Nat) : Int) := by
      simp only [Int.ofNat_eq_coe]; push_cast; rfl
    rw [hcast, copySlot_natCast st src (lo + n) (by omega) (by omega)]
    refine ⟨ha, by simpa using hl, fun i => ?_⟩
    have hsrcv : st._slotsState.getD src none = s._slotsState.getD src none := by
      rw [hget src]; split <;> rfl
    have hi := hget i
    simp only [List.getD_eq_getElem?_getD] at hi hsrcv ⊢
    rw [List.getElem?_set, hsrcv]
    by_cases h1 : lo + n = i
    · subst h1
      have hlt : lo + n < st._slotsState.length := by omega
      simp [hlt]
    · rw [if_neg h1, hi]
      by_cases h2 : lo ≤ i ∧ i < lo + n
      · rw [if_pos h2, if_pos (by omega)]
      · rw [if_neg h2, if_neg (by omega)]

theorem fillSlots_natCast (s : Strategy) (f t : Nat) (hf : f < s._slotsState.length)
    (ht : t < s._slotsState.length) :
    s.fillSlots (f : Int) (t : Int)
      = (List.range (max f t + 1 - min f t)).foldl
          (fun st k => st.copySlot (f : Int) (((min f t : Nat) : Int) + Int.ofNat k)) s := by
  have h1 := (hasSlotIndex_natCast s f).2 hf
  have h2 := (hasSlotIndex_natCast s t).2 ht
  simp only [Strategy.fillSlots, h1, h2, Bool.not_true, Bool.or_self, Bool.false_eq_true,
    if_false]
  by_cases h : (t : Int) < (f : Int)
  · have hmin : min f t = t := by omega
    have hmax : max f t = f := by omega
    have hn : ((f : Int) + 1 - (t : Int)).toNat = f + 1 - t := by omega
    simp only [if_pos h, hmin, hmax, hn]
  · have hmin : min f t = f := by omega
    have hmax : max f t = t := by omega
    have hn : ((t : Int) + 1 - (f : Int)).toNat = t + 1 - f := by omega
    simp only [if_neg h, hmin, hmax, hn]

/-- Claim C7 (`fillSlots` has a fixed source).  For every slot array and every
pair of in-range indices `fromIndex`, `toIndex`, in either order, after
`fillSlots(fromIndex, toIndex)` the array has the same length, every index of
the inclusive range `[min, max]` holds the value that the slot at the literal
`fromIndex` had before the call, and every index outside that range reads as
before.  In particular `fillSlots(0, 3)` turns `[X, _, _, _]` into
`[X, X, X, X]` and `fillSlots(3, 0)` turns `[_, _, _, Y]` into
`[Y, Y, Y, Y]`. -/
theorem fillSlots_fixed_source (s : Strategy) (fromIndex toIndex : Int) :
    (0 ≤ fromIndex ∧ fromIndex < (s.slotsState.length : Int) →
      0 ≤ toIndex ∧ toIndex < (s.slotsState.length : Int) →
      (s.fillSlots fromIndex toIndex).slotsState.length = s.slotsState.length ∧
      ∀ i : Int, (s.fillSlots fromIndex toIndex).slotAtIndex i
        = if min fromIndex toIndex ≤ i ∧ i ≤ max fromIndex toIndex then s.slotAtIndex fromIndex
          else s.slotAtIndex i) ∧
    (∀ (activities : List Activity) (X : Slot),
      (Strategy.mk activities [X, none, none, none]).fillSlots 0 3
        = Strategy.mk activities [X, X, X, X]) ∧
    (∀ (activities : List Activity) (Y : Slot),
      (Strategy.mk activities [none, none, none, Y]).fillSlots 3 0
        = Strategy.mk activities [Y, Y, Y, Y]) := by
  refine ⟨fun hfrom hto => ?_, fun activities X => rfl, fun activities Y => rfl⟩
  simp only [Strategy.slotsState] at hfrom hto ⊢
  obtain ⟨f, rfl⟩ := Int.eq_ofNat_of_zero_le hfrom.1
  obtain ⟨t, rfl⟩ := Int.eq_ofNat_of_zero_le hto.1
  have hf : f < s._slotsState.length := by omega
  have ht : t < s._slotsState.length := by omega
  rw [fillSlots_natCast s f t hf ht]
  obtain ⟨_, hlen, hget⟩ :=
    fill_loop s f (min f t) hf (max f t + 1 - min f t) (by omega)
  refine ⟨hlen, fun i => ?_⟩
  by_cases hi : 0 ≤ i ∧ i < (s._slotsState.length : Int)
  · obtain ⟨j, rfl⟩ := Int.eq_ofNat_of_zero_le hi.1
    rw [slotAtIndex_natCast, slotAtIndex_natCast, slotAtIndex_natCast, hget j]
    by_cases hj : min f t ≤ j ∧ j < min f t + (max f t + 1 - min f t)
    · rw [if_pos hj, if_pos (by omega)]
    · rw [if_neg hj, if_neg (by omega)]
  · have h1 : ¬ s.hasSlotIndex i = true := by rw [hasSlotIndex_iff]; exact hi
    have h2 : ¬ ((List.range (max f t + 1 - min f t)).foldl
        (fun st k => st.copySlot (f : Int) (((min f t : Nat) : Int) + Int.ofNat k))
        s).hasSlotIndex i = true := by
      rw [hasSlotIndex_iff, hlen]; exact hi
    rw [if_neg (by omega)]
    simp only [Strategy.slotAtIndex, h1, h2, Bool.not_false, if_true]

/-- The theorem `fillSlots_fixed_source` at the slots `[A, _, B, _]` with
`fillSlots(2, 1)`: index `1` then holds the `B` of index `2`. -/
theorem fillSlots_fixed_source_witness :
    ((Strategy.mk [] [some ⟨"A"⟩, none, some ⟨"B"⟩, none]).fillSlots 2 1).slotAtIndex 1
      = if min (2 : Int) 1 ≤ 1 ∧ (1 : Int) ≤ max 2 1 then
          (Strategy.mk [] [some ⟨"A"⟩, none, some ⟨"B"⟩, none]).slotAtIndex 2
        else (Strategy.mk [] [some ⟨"A"⟩, none, some ⟨"B"⟩, none]).slotAtIndex 1 :=
  ((fillSlots_fixed_source (Strategy.mk [] [some ⟨"A"⟩, none, some ⟨"B"⟩, none]) 2 1).1
    (by decide) (by decide)).2 1

/-! ## Removing an activity -/

theorem take_succ_set (acts : List Activity) (r : Nat) (x : Activity) (hr : r < acts.length) :
    (acts.set r x).take (r + 1) = acts.take r ++ [x] := by
  rw [List.take_succ, List.set_take,
    List.set_eq_of_length_le (by rw [List.length_take]; omega), List.getElem?_set]
  simp [hr]

theorem remove_loop_object (a : Activity) (l : List Activity) :
    ∀ (m i : Nat) (acts : List Activity) (result : Nat),
      i + m = l.length → acts.length = l.length → result < i →
      acts.drop i = l.drop i →
      ((List.range' i m).foldl (removeStep (ActivityRef.object a)) (acts, result)).1.take
          ((List.range' i m).foldl (removeStep (ActivityRef.object a)) (acts, result)).2
        = acts.take result ++ (l.drop i).filter (fun x => decide (x ≠ a)) := by
  intro m
  induction m with
  | zero =>
    intro i acts result hi _ _ _
    rw [List.drop_of_length_le (by omega)]
    simp
  | succ m ih =>
    intro i acts result hi hlen hres hdrop
    have hlt : i < l.length := by omega
    have hd : l.drop i = l[i] :: l.drop (i + 1) := List.drop_eq_getElem_cons hlt
    have hget : acts[i]? = some l[i] := by
      have h0 := List.getElem?_drop acts i 0
      rw [hdrop, hd, List.getElem?_cons_zero, Nat.add_zero] at h0
      exact h0.symm
    have hdrop' : acts.drop (i + 1) = l.drop (i + 1) := by
      rw [← List.tail_drop, ← List.tail_drop, hdrop]
    rw [List.range'_succ, List.foldl_cons]
    by_cases hx : l[i] = a
    · have hstep : removeStep (ActivityRef.object a) (acts, result) i = (acts, result) := by
        simp [removeStep, hget, ActivityRef.read, hx]
      rw [hstep, ih (i + 1) acts result (by omega) hlen (by omega) hdrop', hd,
        List.filter_cons_of_neg (by simpa using hx)]
    · have hstep : removeStep (ActivityRef.object a) (acts, result) i
          = (acts.set result l[i], result + 1) := by
        have hne : ¬ a = l[i] := fun h => hx h.symm
        simp [removeStep, hget, ActivityRef.read, hne]
      rw [hstep, ih (i + 1) (acts.set result l[i]) (result + 1) (by omega)
        (by rw [List.length_set]; exact hlen) (by omega)
        (by rw [List.drop_set_of_lt _ _ (by omega)]; exact hdrop'),
        take_succ_set acts result l[i] (by omega), hd,
        List.filter_cons_of_pos (by simpa using hx), List.append_assoc]
      rfl

theorem filter_split_findIdx (a : Activity) (l : List Activity) :
    l.filter (fun x => decide (x ≠ a))
      = l.take (l.findIdx fun x => decide (some a = some x))
        ++ (l.drop ((l.findIdx fun x => decide (some a = some x)) + 1)).filter
            (fun x => decide (x ≠ a)) := by
  induction l with
  | nil => simp
  | cons x tl ih =>
    rw [List.findIdx_cons]
    by_cases hx : x = a
    · simp [hx]
    · have hne : ¬ a = x := fun h => hx h.symm
      simp only [Option.some.injEq, hne, decide_False, cond_false, List.take_succ_cons,
        List.drop_succ_cons, List.cons_append]
      rw [List.filter_cons_of_pos (by simpa using hx)]
      congr 1
      simpa using ih

theorem stdRemove_object (a : Activity) (l : List Activity) :
    (stdRemove l (ActivityRef.object a)).1.take (stdRemove l (ActivityRef.object a)).2
      = l.filter (fun x => decide (x ≠ a)) := by
  have hsplit := filter_split_findIdx a l
  have hle : (l.findIdx fun x => decide (some a = some x)) ≤ l.length := List.findIdx_le_length _
  unfold stdRemove findIndex
  simp only [ActivityRef.read]
  by_cases hf : (l.findIdx fun x => decide (some a = some x)) = l.length
  · rw [if_pos hf, hsplit, hf, List.drop_of_length_le (by omega)]
    simp
  · rw [if_neg hf, remove_loop_object a l _ _ l _ (by omega) rfl (by omega) rfl, hsplit]

theorem removeActivity_loop (activity : ActivityRef) (s : Strategy) (v : Activity)
    (hread : activity.read s.activities = some v) :
    ∀ n : Nat, n ≤ s._slotsState.length →
      (List.range n).foldl (removeActivityStep activity) (some s)
        = some { s with _slotsState :=
              (s._slotsState.take n).map (clearedSlot v) ++ s._slotsState.drop n } := by
  intro n
  induction n with
  | zero => intro _; simp
  | succ n ih =>
    intro hn
    have hlt : n < s._slotsState.length := by omega
    have hd : s._slotsState.drop n = s._slotsState[n] :: s._slotsState.drop (n + 1) :=
      List.drop_eq_getElem_cons hlt
    have ht : s._slotsState.take (n + 1) = s._slotsState.take n ++ [s._slotsState[n]] := by
      rw [List.take_succ, List.getElem?_eq_getElem hlt]; rfl
    have hpre : ((s._slotsState.take n).map (clearedSlot v)).length = n := by
      rw [List.length_map, List.length_take]; omega
    generalize s._slotsState[n] = x at hd ht
    have hread' : ((s._slotsState.take n).map (clearedSlot v)
        ++ s._slotsState.drop n).getD n none = x := by
      rw [List.getD_eq_getElem?_getD, List.getElem?_append_right (by omega), hpre, hd,
        Nat.sub_self, List.getElem?_cons_zero, Option.getD_some]
    rw [List.range_succ, List.foldl_append, ih (by omega)]
    simp only [List.foldl_cons, List.foldl_nil, removeActivityStep, Int.ofNat_eq_coe,
      Option.some_bind]
    rw [slotAtIndex_natCast]
    simp only [hread', hread]
    rw [ht, List.map_append, List.map_singleton, List.append_assoc, List.singleton_append]
    cases x with
    | none => rw [hd]; rfl
    | some b =>
      by_cases hb : b = v
      · simp only [hb, if_true]
        rw [List.set_append_right _ _ (by omega), hpre, hd, Nat.sub_self, List.set_cons_zero]
        simp only [clearedSlot, if_true]
      · simp only [hb, if_false]
        rw [hd]
        have : clearedSlot v (some b) = some b := by simp [clearedSlot, hb]
        rw [this]

theorem removeActivity_object_eq (s : Strategy) (a : Activity) :
    s.removeActivity (ActivityRef.object a)
      = some { activities := s.activities.filter fun x => decide (x ≠ a),
               _slotsState := s._slotsState.map (clearedSlot a) } := by
  unfold Strategy.removeActivity
  simp only [Strategy.slotsState, stdRemove_object]
  rw [removeActivity_loop (ActivityRef.object a) _ a rfl _ (le_refl _)]
  simp

/-- The postcondition of `removeActivity` when the argument is an object that
is not an element of the catalogue: the call produces a state in which
`hasActivity(a)` is false and no slot equals `a`. -/
theorem removeActivity_object_post (s : Strategy) (a : Activity) :
    ∃ t : Strategy, s.removeActivity (ActivityRef.object a) = some t ∧
      t.hasActivity a = false ∧ ∀ slot ∈ t.slotsState, slot ≠ some a := by
  refine ⟨_, removeActivity_object_eq s a, ?_, ?_⟩
  · simp [Strategy.hasActivity]
  · intro slot hslot
    simp only [Strategy.slotsState, List.mem_map] at hslot
    obtain ⟨x, _, rfl⟩ := hslot
    unfold clearedSlot
    split
    · simp
    · assumption

/-- Claim C8 (postcondition of `removeActivity`), at a call whose argument is an
element of the catalogue.  With the catalogue `[A, B, A]` and the slots
`[A, B]`, `removeActivity(activities[0])` reads `A` through the reference
until `std::remove` moves `B` to index `0`, and `B` from then on: the call
ends with the catalogue `[B, A]` and the slots `[A, _]`, so `hasActivity(A)`
is still true and the slot `0` still equals `A`, the value the argument had
at the call. -/
theorem removeActivity_aliased_argument :
    ActivityRef.read [⟨"A"⟩, ⟨"B"⟩, ⟨"A"⟩] (ActivityRef.element 0) = some ⟨"A"⟩ ∧
    (Strategy.mk [⟨"A"⟩, ⟨"B"⟩, ⟨"A"⟩] [some ⟨"A"⟩, some ⟨"B"⟩]).removeActivity
        (ActivityRef.element 0)
      = some (Strategy.mk [⟨"B"⟩, ⟨"A"⟩] [some ⟨"A"⟩, none]) ∧
    (Strategy.mk [⟨"B"⟩, ⟨"A"⟩] [some ⟨"A"⟩, none]).hasActivity ⟨"A"⟩ = true ∧
    (Strategy.mk [⟨"B"⟩, ⟨"A"⟩] [some ⟨"A"⟩, none]).slotAtIndex 0 = some ⟨"A"⟩ := by
  decide

/-! ## Writing one slot -/

/-- Claim C9 (`setSlotAtIndex` outside the range).  `setSlotAtIndex` writes
`_slotsState[static_cast<unsigned int>(index)]` without the `hasSlotIndex`
test of `slotAtIndex`, `copySlot` and `fillSlots`.  On the array `[_, _]`, of
length `2`, the index `2` is converted to `2` and the index `-1` to
`4294967295`, both past the end of the vector: the write has no defined
result, so the call is not the no-op that would give the state back
unchanged. -/
theorem setSlotAtIndex_out_of_range_unguarded :
    toUnsigned 2 = 2 ∧ toUnsigned (-1) = 4294967295 ∧
    (Strategy.mk [] [none, none]).hasSlotIndex 2 = false ∧
    (Strategy.mk [] [none, none]).hasSlotIndex (-1) = false ∧
    (Strategy.mk [] [none, none]).setSlotAtIndex 2 (some ⟨"A"⟩) = none ∧
    (Strategy.mk [] [none, none]).setSlotAtIndex (-1) (some ⟨"A"⟩) = none ∧
    (Strategy.mk [] [none, none]).setSlotAtIndex 2 (some ⟨"A"⟩)
      ≠ some (Strategy.mk [] [none, none]) := by
  decide

/-! ## Copying one slot -/

/-- Claim C11 (contract of `copySlot`).  For every slot array and all integers
`fromIndex`, `toIndex`: if both are in range, after
`copySlot(fromIndex, toIndex)` the array has the same length, the slot at
`toIndex` equals the value the slot at `fromIndex` had before the call and
every other index reads as before; if either index is out of range the state
is unchanged. -/
theorem copySlot_spec (s : Strategy) (fromIndex toIndex : Int) :
    (0 ≤ fromIndex ∧ fromIndex < (s.slotsState.length : Int) →
      0 ≤ toIndex ∧ toIndex < (s.slotsState.length : Int) →
      (s.copySlot fromIndex toIndex).slotsState.length = s.slotsState.length ∧
      (s.copySlot fromIndex toIndex).slotAtIndex toIndex = s.slotAtIndex fromIndex ∧
      ∀ i : Int, i ≠ toIndex →
        (s.copySlot fromIndex toIndex).slotAtIndex i = s.slotAtIndex i) ∧
    (¬ (0 ≤ fromIndex ∧ fromIndex < (s.slotsState.length : Int)) ∨
        ¬ (0 ≤ toIndex ∧ toIndex < (s.slotsState.length : Int)) →
      s.copySlot fromIndex toIndex = s) := by
  refine ⟨fun hfrom hto => ?_, fun h => ?_⟩
  · simp only [Strategy.slotsState] at hfrom hto ⊢
    obtain ⟨f, rfl⟩ := Int.eq_ofNat_of_zero_le hfrom.1
    obtain ⟨t, rfl⟩ := Int.eq_ofNat_of_zero_le hto.1
    have hf : f < s._slotsState.length := by omega
    have ht : t < s._slotsState.length := by omega
    rw [copySlot_natCast s f t hf ht]
    refine ⟨by simp, ?_, fun i hi => ?_⟩
    · rw [slotAtIndex_natCast, slotAtIndex_natCast]
      simp only [List.getD_eq_getElem?_getD]
      rw [List.getElem?_set]
      simp [ht]
    · by_cases hin : 0 ≤ i ∧ i < (s._slotsState.length : Int)
      · obtain ⟨j, rfl⟩ := Int.eq_ofNat_of_zero_le hin.1
        have hjt : t ≠ j := fun h => hi (by rw [h])
        rw [slotAtIndex_natCast, slotAtIndex_natCast]
        simp only [List.getD_eq_getElem?_getD]
        rw [List.getElem?_set, if_neg hjt]
      · have h1 : ¬ s.hasSlotIndex i = true := by rw [hasSlotIndex_iff]; exact hin
        have h2 : ¬ (Strategy.mk s.activities
            (s._slotsState.set t (s._slotsState.getD f none))).hasSlotIndex i = true := by
          rw [hasSlotIndex_iff]
          simpa using hin
        simp only [Strategy.slotAtIndex, h1, h2, Bool.not_false, if_true]
  · have hg : s.hasSlotIndex fromIndex = false ∨ s.hasSlotIndex toIndex = false := by
      rcases h with h | h
      · left
        rw [← Bool.not_eq_true, hasSlotIndex_iff]
        exact h
      · right
        rw [← Bool.not_eq_true, hasSlotIndex_iff]
        exact h
    unfold Strategy.copySlot
    rcases hg with hg | hg <;> simp [hg]

/-- The theorem `copySlot_spec` at the slots `[A, _, B]`: `copySlot(2, 1)` puts
the `B` of index `2` at index `1`, and `copySlot(3, 1)`, whose source is out
of range, changes nothing. -/
theorem copySlot_spec_witness :
    ((Strategy.mk [] [some ⟨"A"⟩, none, some ⟨"B"⟩]).copySlot 2 1).slotAtIndex 1
      = (Strategy.mk [] [some ⟨"A"⟩, none, some ⟨"B"⟩]).slotAtIndex 2 ∧
    (Strategy.mk [] [some ⟨"A"⟩, none, some ⟨"B"⟩]).copySlot 3 1
      = Strategy.mk [] [some ⟨"A"⟩, none, some ⟨"B"⟩] :=
  ⟨((copySlot_spec (Strategy.mk [] [some ⟨"A"⟩, none, some ⟨"B"⟩]) 2 1).1
      (by decide) (by decide)).2.1,
    (copySlot_spec (Strategy.mk [] [some ⟨"A"⟩, none, some ⟨"B"⟩]) 3 1).2 (by decide)⟩

/-- Claim C13 (`fillSlots` never mutates partially).  For every slot array and
all integers `fromIndex`, `toIndex` of which at least one is out of range,
`fillSlots(fromIndex, toIndex)` leaves the whole state unchanged. -/
theorem fillSlots_out_of_range (s : Strategy) (fromIndex toIndex : Int)
    (h : ¬ (0 ≤ fromIndex ∧ fromIndex < (s.slotsState.length : Int)) ∨
      ¬ (0 ≤ toIndex ∧ toIndex < (s.slotsState.length : Int))) :
    s.fillSlots fromIndex toIndex = s := by
  have hg : s.hasSlotIndex fromIndex = false ∨ s.hasSlotIndex toIndex = false := by
    rcases h with h | h
    · left
      rw [← Bool.not_eq_true, hasSlotIndex_iff]
      exact h
    · right
      rw [← Bool.not_eq_true, hasSlotIndex_iff]
      exact h
  unfold Strategy.fillSlots
  rcases hg with hg | hg <;> simp [hg]

/-- The theorem `fillSlots_out_of_range` at the slots `[A, _, _]` with
`fillSlots(0, 5)`: the in-range part `0 .. 2` of the interval is not filled. -/
theorem fillSlots_out_of_range_witness :
    (Strategy.mk [] [some ⟨"A"⟩, none, none]).fillSlots 0 5
      = Strategy.mk [] [some ⟨"A"⟩, none, none] :=
  fillSlots_out_of_range (Strategy.mk [] [some ⟨"A"⟩, none, none]) 0 5 (by decide)

/-! ## What `removeActivity` changes -/

/-- What `removeActivity` changes when the argument is an object that is not an
element of the catalogue: the call produces the state whose catalogue is the
original one without its entries equal to `a`, the others in their order,
and whose slot array is the original one with every slot equal to `a`
unassigned. -/
theorem removeActivity_object_exact (s : Strategy) (a : Activity) :
    ∃ t : Strategy, s.removeActivity (ActivityRef.object a) = some t ∧
      t.activities = s.activities.filter (fun x => decide (x ≠ a)) ∧
      t.slotsState.length = s.slotsState.length ∧
      t.slotsState = s.slotsState.map (fun slot => if slot = some a then none else slot) := by
  refine ⟨_, removeActivity_object_eq s a, rfl, ?_, rfl⟩
  simp [Strategy.slotsState]

/-- Claim C12 (`removeActivity` removes exactly what equals `a`), at a call
whose argument is an element of the catalogue.  With the catalogue
`[A, B, A]` and the slots `[B, A, _]`, `removeActivity(activities[0])` is
called with `a = A`.  The claim's result is the catalogue `[B]` and the slots
`[B, _, _]`; the call ends with the catalogue `[B, A]`, which keeps an entry
equal to `A`, and the slots `[_, A, _]`: the slot equal to `A` is kept and
the slot equal to `B` is cleared. -/
theorem removeActivity_aliased_not_exact :
    ActivityRef.read [⟨"A"⟩, ⟨"B"⟩, ⟨"A"⟩] (ActivityRef.element 0) = some ⟨"A"⟩ ∧
    ([⟨"A"⟩, ⟨"B"⟩, ⟨"A"⟩] : List Activity).filter (fun x => decide (x ≠ ⟨"A"⟩)) = [⟨"B"⟩] ∧
    ([some ⟨"B"⟩, some ⟨"A"⟩, none] : SlotsState).map
        (fun slot => if slot = some ⟨"A"⟩ then none else slot)
      = [some ⟨"B"⟩, none, none] ∧
    (Strategy.mk [⟨"A"⟩, ⟨"B"⟩, ⟨"A"⟩] [some ⟨"B"⟩, some ⟨"A"⟩, none]).removeActivity
        (ActivityRef.element 0)
      = some (Strategy.mk [⟨"B"⟩, ⟨"A"⟩] [none, some ⟨"A"⟩, none]) := by
  decide

/-! ## Every group has a positive length -/

/-- Claim C16.  For every slot array, every group returned by `group()` has a
positive length, `length ≥ 1`. -/
theorem group_length_pos (s : Strategy) : ∀ g ∈ s.group, 1 ≤ g.length := by
  intro g hg
  rw [Strategy.group, groupSlots_eq] at hg
  exact pos_of_mem_runsFrom s.slotsState none (by simp) g hg

/-- The theorem `group_length_pos` at the slots `[A, A, _]` and its group
`{A, 2}`. -/
theorem group_length_pos_witness :
    (1 : Nat) ≤ (ActivityGroup.mk (some ⟨"A"⟩) 2).length :=
  group_length_pos (Strategy.mk [] [some ⟨"A"⟩, some ⟨"A"⟩, none])
    (ActivityGroup.mk (some ⟨"A"⟩) 2) (by decide)

/-! ## Writing slots at given indices -/

theorem toUnsigned_lt (index : Int) (n : Nat) (h0 : 0 ≤ index) (h : index < (n : Int)) :
    toUnsigned index < n := by
  unfold toUnsigned
  omega

theorem toUnsigned_of_int (index : Int) (h0 : 0 ≤ index) (h : index < 2 ^ 31) :
    toUnsigned index = index.toNat := by
  unfold toUnsigned
  omega

theorem setSlotAtIndex_inRange (s : Strategy) (index : Int) (slot : Slot) (h0 : 0 ≤ index)
    (h : index < (s._slotsState.length : Int)) :
    s.setSlotAtIndex index slot
      = some { s with _slotsState := s._slotsState.set (toUnsigned index) slot } := by
  have hlt := toUnsigned_lt index _ h0 h
  simp [Strategy.setSlotAtIndex, hlt]

theorem setSlotAtIndices_none (slot : Slot) (indices : List Int) :
    indices.foldl
      (fun (st : Option Strategy) index => st.bind fun t => t.setSlotAtIndex index slot) none
      = none := by
  induction indices with
  | nil => rfl
  | cons i rest ih => simpa using ih

theorem setSlotAtIndices_cons (s : Strategy) (i : Int) (rest : List Int) (slot : Slot) :
    s.setSlotAtIndices (i :: rest) slot
      = (s.setSlotAtIndex i slot).bind fun t => t.setSlotAtIndices rest slot := by
  unfold Strategy.setSlotAtIndices
  rw [List.foldl_cons, Option.some_bind]
  cases s.setSlotAtIndex i slot with
  | none => rw [setSlotAtIndices_none]; rfl
  | some t => rfl

theorem setSlotAtIndices_inRange (slot : Slot) (indices : List Int) :
    ∀ s : Strategy, (∀ i ∈ indices, 0 ≤ i ∧ i < (s._slotsState.length : Int)) →
      ∃ t : Strategy, s.setSlotAtIndices indices slot = some t ∧
        t.activities = s.activities ∧
        t._slotsState.length = s._slotsState.length ∧
        ∀ j : Nat, t._slotsState.getD j none
          = if j < s._slotsState.length ∧ ∃ i ∈ indices, toUnsigned i = j then slot
            else s._slotsState.getD j none := by
  induction indices with
  | nil =>
    intro s _
    exact ⟨s, rfl, rfl, rfl, fun j => by simp⟩
  | cons i rest ih =>
    intro s hs
    have hi := hs i (List.mem_cons_self i rest)
    obtain ⟨t, ht, hact, hlen, hget⟩ :=
      ih { s with _slotsState := s._slotsState.set (toUnsigned i) slot }
        (fun k hk => by simpa using hs k (List.mem_cons_of_mem i hk))
    refine ⟨t, ?_, hact, by simpa using hlen, fun j => ?_⟩
    · rw [setSlotAtIndices_cons, setSlotAtIndex_inRange s i slot hi.1 hi.2]
      exact ht
    · rw [hget j]
      simp only [List.length_set, List.getD_eq_getElem?_getD, List.getElem?_set,
        List.mem_cons, exists_eq_or_imp]
      have hlt := toUnsigned_lt i _ hi.1 hi.2
      by_cases h1 : j < s._slotsState.length ∧ ∃ k ∈ rest, toUnsigned k = j
      · rw [if_pos h1, if_pos ⟨h1.1, Or.inr h1.2⟩]
      · rw [if_neg h1]
        by_cases h2 : toUnsigned i = j
        · subst h2
          simp [hlt]
        · rw [if_neg h2]
          have h3 : ¬ (j < s._slotsState.length ∧
              (toUnsigned i = j ∨ ∃ k ∈ rest, toUnsigned k = j)) := by
            rintro ⟨h4, h5 | h5⟩
            · exact h2 h5
            · exact h1 ⟨h4, h5⟩
          rw [if_neg h3]

theorem slots_ext_getD (l₁ l₂ : SlotsState) (hlen : l₁.length = l₂.length)
    (h : ∀ j : Nat, l₁.getD j none = l₂.getD j none) : l₁ = l₂ := by
  apply List.ext_getElem? 
  intro j
  have hj := h j
  simp only [List.getD_eq_getElem?_getD] at hj
  by_cases hlt : j < l₁.length
  · have hlt2 : j < l₂.length := by omega
    rw [List.getElem?_eq_getElem hlt, List.getElem?_eq_getElem hlt2] at hj ⊢
    simpa using hj
  · rw [List.getElem?_eq_none (by omega), List.getElem?_eq_none (by omega)]

/-- Claim C14 (order independence of `setSlotAtIndices`).  For every slot
array, every slot value `v` and every list of in-range indices, duplicates
allowed, each a value of the type `int` (below `2 ^ 31`):
`setSlotAtIndices(indices, v)` produces a state in which the catalogue and the
length of the array are as before, every listed index holds `v` and every
unlisted index reads as before; and every permutation of `indices` produces
that same state. -/
theorem setSlotAtIndices_order_independent (s : Strategy) (v : Slot) (indices : List Int)
    (h : ∀ i ∈ indices, 0 ≤ i ∧ i < (s.slotsState.length : Int) ∧ i < 2 ^ 31) :
    ∃ t : Strategy, s.setSlotAtIndices indices v = some t ∧
      t.activities = s.activities ∧
      t.slotsState.length = s.slotsState.length ∧
      (∀ j : Int, j ∈ indices → t.slotAtIndex j = v) ∧
      (∀ j : Int, j ∉ indices → t.slotAtIndex j = s.slotAtIndex j) ∧
      ∀ indices' : List Int, indices'.Perm indices →
        s.setSlotAtIndices indices' v = some t := by
  simp only [Strategy.slotsState] at h ⊢
  obtain ⟨t, ht, hact, hlen, hget⟩ :=
    setSlotAtIndices_inRange v indices s (fun i hi => ⟨(h i hi).1, (h i hi).2.1⟩)
  refine ⟨t, ht, hact, hlen, fun j hj => ?_, fun j hj => ?_, fun indices' hperm => ?_⟩
  · obtain ⟨h0, hN, h31⟩ := h j hj
    obtain ⟨k, rfl⟩ := Int.eq_ofNat_of_zero_le h0
    have hk : k < s._slotsState.length := by omega
    rw [slotAtIndex_natCast, hget k, if_pos]
    exact ⟨hk, (k : Int), hj, by rw [toUnsigned_of_int _ h0 h31]; rfl⟩
  · by_cases hin : 0 ≤ j ∧ j < (s._slotsState.length : Int)
    · obtain ⟨k, rfl⟩ := Int.eq_ofNat_of_zero_le hin.1
      rw [slotAtIndex_natCast, slotAtIndex_natCast, hget k, if_neg]
      rintro ⟨_, i, hi, hik⟩
      obtain ⟨h0, _, h31⟩ := h i hi
      rw [toUnsigned_of_int _ h0 h31] at hik
      have : i = (k : Int) := by omega
      exact hj (this ▸ hi)
    · have h1 : ¬ s.hasSlotIndex j = true := by rw [hasSlotIndex_iff]; exact hin
      have h2 : ¬ t.hasSlotIndex j = true := by rw [hasSlotIndex_iff, hlen]; exact hin
      simp only [Strategy.slotAtIndex, h1, h2, Bool.not_false, if_true]
  · obtain ⟨t', ht', hact', hlen', hget'⟩ :=
      setSlotAtIndices_inRange v indices' s
        (fun i hi => ⟨(h i (hperm.mem_iff.1 hi)).1, (h i (hperm.mem_iff.1 hi)).2.1⟩)
    have hslots : t'._slotsState = t._slotsState := by
      apply slots_ext_getD _ _ (by rw [hlen', hlen])
      intro j
      rw [hget' j, hget j]
      have hiff : (j < s._slotsState.length ∧ ∃ i ∈ indices', toUnsigned i = j) ↔
          (j < s._slotsState.length ∧ ∃ i ∈ indices, toUnsigned i = j) := by
        constructor
        · rintro ⟨h1, i, hi, hij⟩
          exact ⟨h1, i, hperm.mem_iff.1 hi, hij⟩
        · rintro ⟨h1, i, hi, hij⟩
          exact ⟨h1, i, hperm.mem_iff.2 hi, hij⟩
      simp only [hiff]
    have heq : t' = t := by
      cases t
      cases t'
      simp only [Strategy.mk.injEq]
      exact ⟨by simpa using hact'.trans hact.symm, by simpa using hslots⟩
    rw [ht', heq]

/-- The theorem `setSlotAtIndices_order_independent` at the slots `[A, _, B, _]`,
the value `C` and the indices `[3, 1, 3]`: the permutation `[1, 3, 3]` gives
the state that `[3, 1, 3]` gives. -/
theorem setSlotAtIndices_order_independent_witness :
    ∃ t : Strategy,
      (Strategy.mk [] [some ⟨"A"⟩, none, some ⟨"B"⟩, none]).setSlotAtIndices [3, 1, 3]
          (some ⟨"C"⟩) = some t ∧
      (Strategy.mk [] [some ⟨"A"⟩, none, some ⟨"B"⟩, none]).setSlotAtIndices [1, 3, 3]
          (some ⟨"C"⟩) = some t ∧
      t.slotAtIndex 3 = some ⟨"C"⟩ :=
  let ⟨t, h1, _, _, h4, _, h6⟩ :=
    setSlotAtIndices_order_independent (Strategy.mk [] [some ⟨"A"⟩, none, some ⟨"B"⟩, none])
      (some ⟨"C"⟩) [3, 1, 3] (by decide)
  ⟨t, h1, h6 [1, 3, 3] (by decide), h4 3 (by decide)⟩

/-! ## The length of the slot array -/

theorem copySlot_activities (s : Strategy) (fromIndex toIndex : Int) :
    (s.copySlot fromIndex toIndex).activities = s.activities := by
  unfold Strategy.copySlot
  split <;> rfl

theorem hasActivity_iff (s : Strategy) (a : Activity) :
    s.hasActivity a = true ↔ a ∈ s.activities := by
  unfold Strategy.hasActivity
  constructor
  · intro h
    by_contra hmem
    have : s.activities.find? (fun x => x == a) = none := by
      rw [List.find?_eq_none]
      intro x hx hxa
      have : x = a := by simpa using hxa
      exact hmem (this ▸ hx)
    simp [this] at h
  · intro hmem
    have : s.activities.find? (fun x => x == a) ≠ none := by
      rw [Ne, List.find?_eq_none]
      intro hall
      exact absurd (hall a hmem) (by simp)
    simp [this]

theorem createEmtpty_slots (numberOfSlots : Nat) :
    ∀ n : Nat, ∀ x ∈ (List.range n).foldl
      (fun (slotsState : SlotsState) i =>
        if i < numberOfSlots / 4 then
          slotsState ++ [([⟨"Training"⟩, ⟨"Work 1"⟩, ⟨"Nap"⟩, ⟨"Commute"⟩] : List Activity)[0]?]
        else if i < 2 * numberOfSlots / 4 then
          slotsState ++ [([⟨"Training"⟩, ⟨"Work 1"⟩, ⟨"Nap"⟩, ⟨"Commute"⟩] : List Activity)[1]?]
        else if i < 3 * numberOfSlots / 4 then
          slotsState ++ [([⟨"Training"⟩, ⟨"Work 1"⟩, ⟨"Nap"⟩, ⟨"Commute"⟩] : List Activity)[2]?]
        else
          slotsState ++ [none])
      [],
      x = none ∨ x = some ⟨"Training"⟩ ∨ x = some ⟨"Work 1"⟩ ∨ x = some ⟨"Nap"⟩ := by
  intro n
  induction n with
  | zero => intro x hx; simp at hx
  | succ n ih =>
    intro x hx
    rw [List.range_succ, List.foldl_append] at hx
    simp only [List.foldl_cons, List.foldl_nil] at hx
    split at hx
    · rcases List.mem_append.1 hx with h | h
      · exact ih x h
      · simp at h; simp [h]
    · split at hx
      · rcases List.mem_append.1 hx with h | h
        · exact ih x h
        · simp at h; simp [h]
      · split at hx
        · rcases List.mem_append.1 hx with h | h
          · exact ih x h
          · simp at h; simp [h]
        · rcases List.mem_append.1 hx with h | h
          · exact ih x h
          · simp at h; simp [h]

theorem noDangling_createEmtpty (numberOfSlots : Nat) :
    NoDangling (Strategy.createEmtpty numberOfSlots) := by
  intro a ha
  rw [hasActivity_iff]
  have h := createEmtpty_slots numberOfSlots numberOfSlots (some a) ha
  simp only [Strategy.createEmtpty]
  rcases h with h | h | h | h
  · exact Option.noConfusion h
  · rw [Option.some.inj h]; simp
  · rw [Option.some.inj h]; simp
  · rw [Option.some.inj h]; simp

theorem noDangling_copySlot (s : Strategy) (fromIndex toIndex : Int) (h : NoDangling s) :
    NoDangling (s.copySlot fromIndex toIndex) := by
  intro a ha
  rw [hasActivity_iff, copySlot_activities, ← hasActivity_iff]
  unfold Strategy.copySlot at ha
  split at ha
  · exact h a ha
  · simp only [Strategy.slotsState] at ha
    rcases List.mem_or_eq_of_mem_set ha with h1 | h1
    · exact h a h1
    · apply h a
      by_cases hlt : fromIndex.toNat < s._slotsState.length
      · rw [List.getD_eq_getElem _ _ hlt] at h1
        rw [h1]
        exact List.getElem_mem hlt
      · rw [List.getD_eq_default _ _ (by omega)] at h1
        exact Option.noConfusion h1

theorem noDangling_foldl_copySlot (src lo : Int) (ks : List Nat) :
    ∀ s : Strategy, NoDangling s →
      NoDangling (ks.foldl (fun st k => st.copySlot src (lo + Int.ofNat k)) s) := by
  induction ks with
  | nil => intro s h; exact h
  | cons k rest ih =>
    intro s h
    rw [List.foldl_cons]
    exact ih _ (noDangling_copySlot s _ _ h)

theorem noDangling_fillSlots (s : Strategy) (fromIndex toIndex : Int) (h : NoDangling s) :
    NoDangling (s.fillSlots fromIndex toIndex) := by
  unfold Strategy.fillSlots
  split
  · exact h
  · exact noDangling_foldl_copySlot _ _ _ s h

theorem noDangling_removeActivity (s t : Strategy) (activity : Activity) (h : NoDangling s)
    (ht : s.removeActivity (ActivityRef.object activity) = some t) : NoDangling t := by
  rw [removeActivity_object_eq] at ht
  cases ht
  intro a ha
  simp only [Strategy.slotsState, List.mem_map] at ha
  obtain ⟨x, hx, hxa⟩ := ha
  have hne : x ≠ some activity := by
    intro hxe
    simp [clearedSlot, hxe] at hxa
  have hxa' : x = some a := by
    simpa [clearedSlot, hne] using hxa
  have hmem : a ∈ s.activities := (hasActivity_iff s a).1 (h a (hxa' ▸ hx))
  have hab : a ≠ activity := fun hab => hne (by rw [hxa', hab])
  rw [hasActivity_iff]
  simp [hmem, hab]

theorem noDangling_setSlotAtIndex (s t : Strategy) (index : Int) (slot : Slot)
    (h : NoDangling s) (hslot : ∀ a, slot = some a → s.hasActivity a = true)
    (ht : s.setSlotAtIndex index slot = some t) :
    NoDangling t ∧ t.activities = s.activities := by
  unfold Strategy.setSlotAtIndex at ht
  split at ht
  · cases ht
    refine ⟨fun a ha => ?_, rfl⟩
    rw [hasActivity_iff]
    simp only [Strategy.slotsState] at ha
    rcases List.mem_or_eq_of_mem_set ha with h1 | h1
    · exact (hasActivity_iff s a).1 (h a h1)
    · exact (hasActivity_iff s a).1 (hslot a h1.symm)
  · exact Option.noConfusion ht

theorem noDangling_setSlotAtIndices (slot : Slot) (indices : List Int) :
    ∀ s t : Strategy, NoDangling s → (∀ a, slot = some a → s.hasActivity a = true) →
      s.setSlotAtIndices indices slot = some t → NoDangling t := by
  induction indices with
  | nil =>
    intro s t h _ ht
    cases ht
    exact h
  | cons i rest ih =>
    intro s t h hslot ht
    rw [setSlotAtIndices_cons] at ht
    cases h1 : s.setSlotAtIndex i slot with
    | none => rw [h1] at ht; exact Option.noConfusion ht
    | some u =>
      rw [h1] at ht
      obtain ⟨hu, hact⟩ := noDangling_setSlotAtIndex s u i slot h hslot h1
      refine ih u t hu (fun a ha => ?_) ht
      rw [hasActivity_iff, hact, ← hasActivity_iff]
      exact hslot a ha

/-- No dangling references as long as no call of `removeActivity` passes an
element of the catalogue: in every state reachable from `createEmtpty()`, for
any number of slots, by `appendActivity`, `removeActivity` with an object
outside the catalogue, `copySlot`, `fillSlots`, and `setSlotAtIndex` /
`setSlotAtIndices` at in-range indices with a slot that is unassigned or
holds an activity of the current catalogue, the activity of every assigned
slot satisfies `hasActivity`. -/
theorem reachable_noDangling (numberOfSlots : Nat) (s : Strategy)
    (h : Reachable numberOfSlots s) :
    ∀ a : Activity, some a ∈ s.slotsState → s.hasActivity a = true := by
  induction h with
  | create => exact noDangling_createEmtpty numberOfSlots
  | appendActivity s activity _ ih =>
    intro a ha
    have hmem := (hasActivity_iff s a).1 (ih a ha)
    rw [hasActivity_iff]
    simp [Strategy.appendActivity, hmem]
  | removeActivity s t activity _ ht ih => exact noDangling_removeActivity s t activity ih ht
  | copySlot s fromIndex toIndex _ ih => exact noDangling_copySlot s fromIndex toIndex ih
  | fillSlots s fromIndex toIndex _ ih => exact noDangling_fillSlots s fromIndex toIndex ih
  | setSlotAtIndex s t index slot _ _ hslot ht ih =>
    exact (noDangling_setSlotAtIndex s t index slot ih hslot ht).1
  | setSlotAtIndices s t indices slot _ _ hslot ht ih =>
    exact noDangling_setSlotAtIndices slot indices s t ih hslot ht

/-- Claim C17 (no dangling references), at the state reached from
`createEmtpty()` by one call of `removeActivity` whose argument is an element
of the catalogue.  With `8` slots, `createEmtpty()` gives the catalogue
`[Training, Work 1, Nap, Commute]` and the slots
`[Training, Training, Work 1, Work 1, Nap, Nap, _, _]`.
`removeActivity(activities[0])` then leaves the catalogue
`[Work 1, Nap, Commute]` and clears the slots of "Work 1", the value that
index `0` holds once `std::remove` has run: the slots `0` and `1` still hold
"Training", which `hasActivity` no longer finds. -/
theorem createEmtpty_removeActivity_dangling :
    (Strategy.createEmtpty 8)
      = Strategy.mk [⟨"Training"⟩, ⟨"Work 1"⟩, ⟨"Nap"⟩, ⟨"Commute"⟩]
          [some ⟨"Training"⟩, some ⟨"Training"⟩, some ⟨"Work 1"⟩, some ⟨"Work 1"⟩,
            some ⟨"Nap"⟩, some ⟨"Nap"⟩, none, none] ∧
    (Strategy.createEmtpty 8).removeActivity (ActivityRef.element 0)
      = some (Strategy.mk [⟨"Work 1"⟩, ⟨"Nap"⟩, ⟨"Commute"⟩]
          [some ⟨"Training"⟩, some ⟨"Training"⟩, none, none,
            some ⟨"Nap"⟩, some ⟨"Nap"⟩, none, none]) ∧
    (Strategy.mk [⟨"Work 1"⟩, ⟨"Nap"⟩, ⟨"Commute"⟩]
      [some ⟨"Training"⟩, some ⟨"Training"⟩, none, none,
        some ⟨"Nap"⟩, some ⟨"Nap"⟩, none, none]).slotAtIndex 0 = some ⟨"Training"⟩ ∧
    (Strategy.mk [⟨"Work 1"⟩, ⟨"Nap"⟩, ⟨"Commute"⟩]
      [some ⟨"Training"⟩, some ⟨"Training"⟩, none, none,
        some ⟨"Nap"⟩, some ⟨"Nap"⟩, none, none]).hasActivity ⟨"Training"⟩ = false := by
  decide

/-! ## From a slot to its group -/

theorem groupStart_cons_succ (g : ActivityGroup) (gs : ActivityGroupsState) (i : Nat) :
    groupStart (g :: gs) (i + 1) = g.length + groupStart gs i := by
  simp [groupStart, totalLength]

theorem groupAt_cons_succ (g : ActivityGroup) (gs : ActivityGroupsState) (i : Nat) :
    groupAt (g :: gs) (i + 1) = groupAt gs i := by
  simp [groupAt]

theorem expandGroups_getElem? (gs : ActivityGroupsState) :
    ∀ (i x : Nat), i < gs.length → groupStart gs i ≤ x → x < groupStart gs (i + 1) →
      (expandGroups gs)[x]? = some (groupAt gs i).activity := by
  induction gs with
  | nil => intro i x hi; simp at hi
  | cons g rest ih =>
    intro i x hi h1 h2
    rw [expandGroups_cons]
    cases i with
    | zero =>
      have hx : x < g.length := by
        simpa [groupStart, totalLength] using h2
      rw [List.getElem?_append_left (by simpa using hx)]
      simp [groupAt, hx]
    | succ i =>
      rw [groupStart_cons_succ] at h1 h2
      rw [List.getElem?_append_right (by simpa using (by omega : g.length ≤ x)),
        groupAt_cons_succ, List.length_replicate]
      exact ih i (x - g.length) (by simpa using hi) (by omega) (by omega)

theorem locate_group (s : Strategy) (x : Nat) (hx : x < s._slotsState.length) :
    ∃ i : Nat, i < s.group.length ∧
      s.groupIndexForSlotIndex (x : Int) = some (i : Int) ∧
      groupStart s.group i ≤ x ∧ x < groupStart s.group (i + 1) ∧
      (groupAt s.group i).activity = s._slotsState.getD x none := by
  have htot : totalLength s.group = s._slotsState.length := totalLength_group s
  have hz : groupStart s.group 0 = 0 := by simp [groupStart, totalLength]
  obtain ⟨i, _, hi2, hi3, hi4, hi5⟩ :=
    (groupIndexLoop_spec s.group (x : Int) s.group.length 0 (by omega)).1
      (by rw [hz]; exact_mod_cast Nat.zero_le x) (by rw [htot]; exact_mod_cast hx)
  rw [← groupIndexForSlotIndex_eq] at hi3
  have h4 : groupStart s.group i ≤ x := by exact_mod_cast hi4
  have h5 : x < groupStart s.group (i + 1) := by exact_mod_cast hi5
  refine ⟨i, hi2, hi3, h4, h5, ?_⟩
  have hget := expandGroups_getElem? s.group i x hi2 h4 h5
  rw [expandGroups_group] at hget
  simp only [Strategy.slotsState] at hget
  rw [List.getD_eq_getElem?_getD, hget, Option.getD_some]

/-- Claim C18 (slot-to-group containment).  For every slot array of length `N`
and every slot index `x` in `[0, N)`: `groupIndexForSlotIndex(x)` is present
with some value `g`, `startSlotIndexForGroupIndex(g)` is present with some
value `b`, `b ≤ x < b + length of group g`, and the activity of group `g` is
the slot value at `x`. -/
theorem slot_in_its_group (s : Strategy) (x : Int) (h0 : 0 ≤ x)
    (hN : x < (s.slotsState.length : Int)) :
    ∃ g b : Int, s.groupIndexForSlotIndex x = some g ∧
      s.startSlotIndexForGroupIndex g = some b ∧
      0 ≤ g ∧ g < (s.group.length : Int) ∧
      b ≤ x ∧ x < b + ((groupAt s.group g.toNat).length : Int) ∧
      (groupAt s.group g.toNat).activity = s.slotAtIndex x := by
  simp only [Strategy.slotsState] at hN
  obtain ⟨k, rfl⟩ := Int.eq_ofNat_of_zero_le h0
  have hk : k < s._slotsState.length := by omega
  obtain ⟨i, hi, hidx, h1, h2, hact⟩ := locate_group s k hk
  have hsucc := groupStart_succ s.group i hi
  refine ⟨(i : Int), (groupStart s.group i : Int), hidx,
    startSlotIndexForGroupIndex_eq s (i : Int) (by omega) (by omega), by omega, by omega,
    by omega, ?_, ?_⟩
  · rw [Int.toNat_ofNat]
    omega
  · rw [Int.toNat_ofNat, slotAtIndex_natCast]
    exact hact

/-- The theorem `slot_in_its_group` at the slots `[A, A, _, B]` and the slot
index `1`, which lies in the group `{A, 2}` that starts at `0`. -/
theorem slot_in_its_group_witness :
    ∃ g b : Int,
      (Strategy.mk [] [some ⟨"A"⟩, some ⟨"A"⟩, none, some ⟨"B"⟩]).groupIndexForSlotIndex 1
        = some g ∧
      (Strategy.mk [] [some ⟨"A"⟩, some ⟨"A"⟩, none, some ⟨"B"⟩]).startSlotIndexForGroupIndex g
        = some b ∧
      b ≤ 1 :=
  let ⟨g, b, h1, h2, _, _, h5, _⟩ :=
    slot_in_its_group (Strategy.mk [] [some ⟨"A"⟩, some ⟨"A"⟩, none, some ⟨"B"⟩]) 1
      (by decide) (by decide)
  ⟨g, b, h1, h2, h5⟩

/-! ## The number of groups -/

theorem group_activity_of_interval (t : Strategy) (i x : Nat) (hi : i < t.group.length)
    (h1 : groupStart t.group i ≤ x) (h2 : x < groupStart t.group (i + 1)) :
    (groupAt t.group i).activity = t._slotsState.getD x none := by
  have hget := expandGroups_getElem? t.group i x hi h1 h2
  rw [expandGroups_group] at hget
  simp only [Strategy.slotsState] at hget
  rw [List.getD_eq_getElem?_getD, hget, Option.getD_some]

theorem group_adjacent_ne (t : Strategy) (i : Nat) (hi : i + 1 < t.group.length) (a : Activity)
    (h1 : (groupAt t.group i).activity = some a)
    (h2 : (groupAt t.group (i + 1)).activity = some a) : False := by
  have hchain : List.Chain'
      (fun g h : ActivityGroup => ¬ (g.activity ≠ none ∧ g.activity = h.activity)) t.group := by
    rw [Strategy.group, groupSlots_eq]
    exact chain'_runsFrom _ none
  have h := List.chain'_iff_get.1 hchain i (by omega)
  simp only [groupAt] at h1 h2
  rw [List.getD_eq_getElem _ _ (by omega)] at h1 h2
  apply h
  simp only [List.get_eq_getElem]
  rw [h1, h2]
  exact ⟨by simp, rfl⟩

theorem run_in_one_group (t : Strategy) (lo hi : Nat) (a : Activity) (hle : lo ≤ hi)
    (hhi : hi < t._slotsState.length)
    (hrun : ∀ x : Nat, lo ≤ x → x ≤ hi → t._slotsState.getD x none = some a) :
    ∃ g : Nat, g < t.group.length ∧
      (∀ x : Nat, lo ≤ x → x ≤ hi → t.groupIndexForSlotIndex (x : Int) = some (g : Int)) ∧
      groupStart t.group g ≤ lo ∧ hi < groupStart t.group (g + 1) ∧
      (groupAt t.group g).activity = some a := by
  obtain ⟨g, hg, _, hg1, hg2, hgact⟩ := locate_group t lo (by omega)
  rw [hrun lo (le_refl _) hle] at hgact
  have htot : totalLength t.group = t._slotsState.length := totalLength_group t
  have hrange : ∀ n : Nat, lo + n ≤ hi → lo + n < groupStart t.group (g + 1) := by
    intro n
    induction n with
    | zero => intro _; exact hg2
    | succ n ih =>
      intro hn
      have ihn := ih (by omega)
      by_contra hcon
      have heq : groupStart t.group (g + 1) = lo + n + 1 := by omega
      have hg1' : g + 1 < t.group.length := by
        by_contra hlen
        have hlast : g + 1 = t.group.length := by omega
        rw [hlast, groupStart_length, htot] at heq
        omega
      have hpos := groupAt_length_pos t.slotsState (g + 1) hg1'
      have hsucc := groupStart_succ t.group (g + 1) hg1'
      have hpos' : 0 < (groupAt t.group (g + 1)).length := hpos
      have hact := group_activity_of_interval t (g + 1) (lo + n + 1) hg1' (by omega) (by omega)
      rw [hrun (lo + n + 1) (by omega) (by omega)] at hact
      exact group_adjacent_ne t g hg1' a hgact hact
  refine ⟨g, hg, fun x hx1 hx2 => ?_, hg1, ?_, hgact⟩
  · obtain ⟨i, _, hidx, hi1, hi2, _⟩ := locate_group t x (by omega)
    have hx3 : x < groupStart t.group (g + 1) := by
      have := hrange (x - lo) (by omega)
      omega
    have hig : i = g :=
      groupStart_interval_unique t.group (x : Int) (by exact_mod_cast hi1)
        (by exact_mod_cast hi2) (by exact_mod_cast (by omega : groupStart t.group g ≤ x))
        (by exact_mod_cast hx3)
    rw [hidx, hig]
  · have := hrange (hi - lo) (by omega)
    omega

/-- Claim C20 (a range fill produces one group).  For every slot array and
in-range indices `fromIndex`, `toIndex` such that the slot at `fromIndex` is
assigned: after `fillSlots(fromIndex, toIndex)` there is one group index `g`
to which `groupIndexForSlotIndex` maps every slot index of
`[min, max]`; the activity of group `g` is the original slot value at
`fromIndex`, and its length is at least `max - min + 1`. -/
theorem fillSlots_one_group (s : Strategy) (fromIndex toIndex : Int) (a : Activity)
    (hfrom : 0 ≤ fromIndex ∧ fromIndex < (s.slotsState.length : Int))
    (hto : 0 ≤ toIndex ∧ toIndex < (s.slotsState.length : Int))
    (ha : s.slotAtIndex fromIndex = some a) :
    ∃ g : Nat, g < (s.fillSlots fromIndex toIndex).group.length ∧
      (∀ x : Int, min fromIndex toIndex ≤ x → x ≤ max fromIndex toIndex →
        (s.fillSlots fromIndex toIndex).groupIndexForSlotIndex x = some (g : Int)) ∧
      (groupAt (s.fillSlots fromIndex toIndex).group g).activity = s.slotAtIndex fromIndex ∧
      max fromIndex toIndex - min fromIndex toIndex + 1
        ≤ ((groupAt (s.fillSlots fromIndex toIndex).group g).length : Int) := by
  simp only [Strategy.slotsState] at hfrom hto
  obtain ⟨f, rfl⟩ := Int.eq_ofNat_of_zero_le hfrom.1
  obtain ⟨t, rfl⟩ := Int.eq_ofNat_of_zero_le hto.1
  have hf : f < s._slotsState.length := by omega
  have ht : t < s._slotsState.length := by omega
  rw [slotAtIndex_natCast] at ha
  obtain ⟨_, hlen, hget⟩ :=
    fill_loop s f (min f t) hf (max f t + 1 - min f t) (by omega)
  rw [← fillSlots_natCast s f t hf ht] at hlen hget
  have hrun : ∀ x : Nat, min f t ≤ x → x ≤ max f t →
      (s.fillSlots (f : Int) (t : Int))._slotsState.getD x none = some a := by
    intro x hx1 hx2
    rw [hget x, if_pos (by omega), ha]
  obtain ⟨g, hg, hidx, hg1, hg2, hact⟩ :=
    run_in_one_group (s.fillSlots (f : Int) (t : Int)) (min f t) (max f t) a (by omega)
      (by omega) hrun
  have hsucc := groupStart_succ (s.fillSlots (f : Int) (t : Int)).group g hg
  refine ⟨g, hg, fun x hx1 hx2 => ?_, ?_, ?_⟩
  · obtain ⟨k, rfl⟩ := Int.eq_ofNat_of_zero_le (show (0 : Int) ≤ x by omega)
    exact hidx k (by omega) (by omega)
  · rw [slotAtIndex_natCast, ha, hact]
  · omega

/-- The theorem `fillSlots_one_group` at the slots `[_, A, _, _, B]` with
`fillSlots(1, 3)`: the slot indices `1 .. 3` then lie in one group of `A`. -/
theorem fillSlots_one_group_witness :
    ∃ g : Nat,
      ((Strategy.mk [] [none, some ⟨"A"⟩, none, none, some ⟨"B"⟩]).fillSlots 1 3).groupIndexForSlotIndex
          3 = some (g : Int) ∧
      (groupAt ((Strategy.mk [] [none, some ⟨"A"⟩, none, none, some ⟨"B"⟩]).fillSlots 1 3).group
          g).activity = some ⟨"A"⟩ :=
  let ⟨g, _, h2, h3, _⟩ :=
    fillSlots_one_group (Strategy.mk [] [none, some ⟨"A"⟩, none, none, some ⟨"B"⟩]) 1 3 ⟨"A"⟩
      (by decide) (by decide) (by decide)
  ⟨g, h2 3 (by decide) (by decide), h3.trans (by decide)⟩

end Strategr
